import Mathlib

/-!
Verification development for `mediasort.py` (umi0451/mediasort).

Strings are modelled as `List Char` (`Str`), restricted to the behaviour of
Python `str` operations on the inputs the program handles; machine-level
details (unicode categories beyond ASCII, bytes vs str) are modelled at the
granularity the program uses them.
-/

namespace Mediasort

abbrev Str := List Char

/-- Python whitespace for `str.strip` and friends (ASCII fragment). -/
def pyIsSpace (c : Char) : Bool :=
  c = ' ' || c = '\t' || c = '\n' || c = '\r' || c = '\x0b' || c = '\x0c'

/-- Python `str.lstrip()` (no argument: strip leading whitespace). -/
def lstrip (s : Str) : Str := s.dropWhile pyIsSpace

/-- Python `str.rstrip()`. -/
def rstrip (s : Str) : Str := (s.reverse.dropWhile pyIsSpace).reverse

/-- Python `str.strip()`. -/
def pyStrip (s : Str) : Str := rstrip (lstrip s)

/-- Python `str.lower()` (ASCII). -/
def pyLower (s : Str) : Str := s.map Char.toLower

/-- Recursion core of `pyReplace`, structurally recursive on a fuel
counter so that the kernel can evaluate it; every step consumes at least
one character of `s`, so fuel `s.length` never runs out. -/
def pyReplaceF (rep pat : Str) : Nat → Str → Str
  | _, [] => if pat = [] then rep else []
  | 0, _ :: _ => []
  | fuel + 1, c :: s' =>
    if pat ≠ [] && pat.isPrefixOf (c :: s') then
      rep ++ pyReplaceF rep pat fuel (s'.drop (pat.length - 1))
    else
      (if pat = [] then rep else []) ++ c :: pyReplaceF rep pat fuel s'

/-- Python `s.replace(pat, rep)`: replace all non-overlapping occurrences,
scanning left to right.  An empty pattern inserts `rep` at every position
(Python semantics). -/
def pyReplace (s pat rep : Str) : Str := pyReplaceF rep pat s.length s

/-- Python `pat in s` (substring containment). -/
def containsSub (pat : Str) : Str → Bool
  | [] => pat.isPrefixOf []
  | c :: s => pat.isPrefixOf (c :: s) || containsSub pat s

/-- `re.sub(' +', ' ', s)`: collapse every run of spaces to a single space. -/
def collapseSpaces : Str → Str
  | [] => []
  | [c] => [c]
  | c :: d :: s =>
    if c = ' ' && d = ' ' then collapseSpaces (d :: s)
    else c :: collapseSpaces (d :: s)

/-- Word characters of the `re.split(r"([\w']+)", _)` splitter used for
capitalisation: `\w` (ASCII) plus the apostrophe. -/
def isWordChar (c : Char) : Bool :=
  c.isAlpha || c.isDigit || c = '_' || c = '\''

/-- Python `str.capitalize()` on one token: first char upper, rest lower. -/
def capRun : Str → Str
  | [] => []
  | c :: s => c.toUpper :: s.map Char.toLower

/-- State machine for `capitalizeWords`: the flag records whether we are in
the middle of a word-character run (whose first character was already
uppercased, so the rest is lowercased). -/
def capWordsGo : Bool → Str → Str
  | _, [] => []
  | inWord, c :: s =>
    if isWordChar c then
      (if inWord then c.toLower else c.toUpper) :: capWordsGo true s
    else
      c :: capWordsGo false s

/-- `''.join(word.capitalize() for word in re.split(r"([\w']+)", s))`:
capitalise every maximal run of word characters (first char upper, rest
lower), leave separator runs as they are (capitalising a string of non-word
characters does not change it). -/
def capitalizeWords (s : Str) : Str := capWordsGo false s

/-- Python `str(n)` for a natural number (decimal, no sign). -/
def natToStr (n : Nat) : Str := Nat.toDigits 10 n

/-- Python `str(i)` for an integer. -/
def intToStr : Int → Str
  | Int.ofNat n => natToStr n
  | Int.negSucc n => '-' :: natToStr (n + 1)

/-- Digit sequence for `int()`, continuing after at least one digit was
read; Python allows single underscores between digits. -/
def digitsCore : Str → Nat → Option Nat
  | [], acc => some acc
  | '_' :: c :: s, acc =>
    if c.isDigit then digitsCore s (acc * 10 + (c.toNat - 48)) else none
  | c :: s, acc =>
    if c.isDigit then digitsCore s (acc * 10 + (c.toNat - 48)) else none

/-- Nonempty digit sequence (with `_` separators) for `int()`. -/
def parseUDigits : Str → Option Nat
  | [] => none
  | c :: s => if c.isDigit then digitsCore s (c.toNat - 48) else none

/-- Python `int(s)` on a string: strip whitespace, optional sign, decimal
digits; `none` models the `ValueError`. -/
def pyInt (s : Str) : Option Int :=
  match pyStrip s with
  | '+' :: rest => (parseUDigits rest).map Int.ofNat
  | '-' :: rest => (parseUDigits rest).map (fun n => -(n : Int))
  | rest => (parseUDigits rest).map Int.ofNat

/-- A Python tag value that is either already an `int` or still a string
(`TagInfo.number` holds both kinds before repair). -/
inductive NumVal where
  | i (n : Int)
  | s (v : Str)
deriving DecidableEq, Repr

/-- Python `str(number)`. -/
def numStr : NumVal → Str
  | .i n => intToStr n
  | .s v => v

/-- Python truthiness of a `TagInfo.number` value (`0` and `''` are falsy). -/
def truthyNum : NumVal → Bool
  | .i n => n ≠ 0
  | .s v => v ≠ []

/-- Python `int(x)` where `x` is an int or a string. -/
def pyIntNum : NumVal → Option Int
  | .i n => some n
  | .s v => pyInt v

/-- Remove trailing `/` characters (Python `head.rstrip('/')`). -/
def stripTrailingSlashes (s : Str) : Str := (s.reverse.dropWhile (· = '/')).reverse

/-- The part of a posix path after the last `/`. -/
def osSplitTail (p : Str) : Str := (p.reverse.takeWhile (· ≠ '/')).reverse

/-- The part of a posix path up to the last `/`, trailing slashes stripped
unless the head consists only of slashes. -/
def osSplitHead (p : Str) : Str :=
  if (p.take (p.length - (osSplitTail p).length)) ≠ [] ∧
      (p.take (p.length - (osSplitTail p).length)).any (· ≠ '/') then
    stripTrailingSlashes (p.take (p.length - (osSplitTail p).length))
  else p.take (p.length - (osSplitTail p).length)

/-- `os.path.split` (posix). -/
def osSplit (p : Str) : Str × Str := (osSplitHead p, osSplitTail p)

/-- The `while path:` loop of `_split_path`, accumulating directory names
front-first (the Python code uses `insert(0, _)`).  Structurally
recursive on a fuel counter; each iteration that recurses strips a
nonempty tail component off the path, so fuel `path.length` never runs
out. -/
def splitPathLoopF : Nat → Str → List Str → List Str
  | _, [], acc => acc
  | 0, _ :: _, acc => acc
  | fuel + 1, c :: p, acc =>
    if (osSplit (c :: p)).2 ≠ [] then
      splitPathLoopF fuel (osSplit (c :: p)).1 ((osSplit (c :: p)).2 :: acc)
    else if (osSplit (c :: p)).1 ≠ [] then (osSplit (c :: p)).1 :: acc else acc

/-- `_split_path`: directory components plus the final name component. -/
def split_path (p : Str) : List Str :=
  splitPathLoopF (osSplit p).1.length (osSplit p).1 [] ++ [(osSplit p).2]

/-- `os.path.join(a, b)` (posix, two arguments). -/
def osJoin (a b : Str) : Str :=
  if b.head? = some '/' then b
  else if a = [] || a.getLast? = some '/' then a ++ b
  else a ++ '/' :: b

/-- `reduce(os.path.join, parts)`; `none` models the `TypeError` that
`reduce` raises on an empty sequence with no initial value. -/
def joinPath : List Str → Option Str
  | [] => none
  | x :: xs => some (xs.foldl osJoin x)

/-- Python `s.split('/')` (always returns at least one piece). -/
def splitOnSlash : Str → List Str
  | [] => [[]]
  | c :: rest =>
    match splitOnSlash rest with
    | [] => [[]]
    | h :: t => if c = '/' then [] :: h :: t else (c :: h) :: t

/-- The component-processing loop of `posixpath.normpath`: skip empty and
`.` components; append a component unless it is a `..` that can cancel a
previous real component, in which case pop that component. -/
def normComps (slashes : Nat) : List Str → List Str → List Str
  | acc, [] => acc
  | acc, comp :: rest =>
    if comp = [] ∨ comp = ".".data then normComps slashes acc rest
    else if comp ≠ "..".data ∨ (slashes = 0 ∧ acc = []) ∨
        (acc ≠ [] ∧ acc.getLastD [] = "..".data) then
      normComps slashes (acc ++ [comp]) rest
    else if acc ≠ [] then normComps slashes acc.dropLast rest
    else normComps slashes acc rest

/-- Python `sep.join(pieces)`. -/
def joinWith (sep : Str) : List Str → Str
  | [] => []
  | [x] => x
  | x :: y :: xs => x ++ sep ++ joinWith sep (y :: xs)

/-- `posixpath.normpath`. -/
def normpath (p : Str) : Str :=
  if p = [] then ".".data
  else
    let slashes : Nat :=
      if "//".data.isPrefixOf p && !("///".data.isPrefixOf p) then 2
      else if "/".data.isPrefixOf p then 1 else 0
    let joined := List.replicate slashes '/' ++
      joinWith "/".data (normComps slashes [] (splitOnSlash p))
    if joined = [] then ".".data else joined

/-- `posixpath.abspath`, with the process working directory made explicit. -/
def abspath (cwd p : Str) : Str :=
  if p.head? = some '/' then normpath p else normpath (osJoin cwd p)

/-- `os.path.basename` (posix). -/
def basename (p : Str) : Str := (osSplit p).2

/-- `os.path.splitext` applied to a path that is already a base name:
split off the extension at the last dot, unless every character before
that dot is itself a dot. -/
def splitextBase (b : Str) : Str × Str :=
  let extRev := b.reverse.takeWhile (· ≠ '.')
  if extRev.length = b.length then (b, [])
  else
    let root := b.take (b.length - extRev.length - 1)
    if root.any (· ≠ '.') then (root, '.' :: extRev.reverse) else (b, [])

/-- `re.match(r'CD ?[0-9]', s, re.IGNORECASE)` as a boolean: anchored at
the start, `C`/`c`, `D`/`d`, optional space, digit. -/
def matchesCDMarker : Str → Bool
  | c :: d :: rest =>
    (c = 'C' || c = 'c') && (d = 'D' || d = 'd') &&
      (match rest with
       | ' ' :: x :: _ => x.isDigit
       | x :: _ => x.isDigit
       | [] => false)
  | _ => false

/-- Captures of named groups: group name to captured substring. -/
abbrev Caps := List (String × Str)

/-- Deep embedding of the regex fragment the program uses: character
classes, greedy `+`/`*` over a class, option `?`, concatenation and named
groups.  `chr p` is a single character of class `p` (for `.` the class is
`c ≠ '\n'`, Python matches without `re.DOTALL`). -/
inductive RE where
  | eps
  | chr (p : Char → Bool)
  | plusC (p : Char → Bool)
  | starC (p : Char → Bool)
  | cat (a b : RE)
  | opt (a : RE)
  | grp (name : String) (a : RE)

/-- Backtracking matcher, returning all `(captures, remaining suffix)`
pairs in the preference order of Python `re` (greedy quantifiers try the
longest consumption first, `?` tries presence first).  The head of the
returned list is the match Python's engine reports. -/
def matchRE : RE → Str → List (Caps × Str)
  | .eps, s => [([], s)]
  | .chr p, [] => []
  | .chr p, c :: s => if p c then [([], s)] else []
  | .plusC p, s =>
    (List.range (s.takeWhile p).length).map
      (fun i => (([] : Caps), s.drop ((s.takeWhile p).length - i)))
  | .starC p, s =>
    (List.range ((s.takeWhile p).length + 1)).map
      (fun i => (([] : Caps), s.drop ((s.takeWhile p).length - i)))
  | .cat a b, s =>
    (matchRE a s).flatMap
      (fun pr => (matchRE b pr.2).map (fun qr => (pr.1 ++ qr.1, qr.2)))
  | .opt a, s => matchRE a s ++ [([], s)]
  | .grp n a, s =>
    (matchRE a s).map (fun pr => (pr.1 ++ [(n, s.take (s.length - pr.2.length))], pr.2))

/-- Lookup of a named group in a capture list (`m.group(n)`). -/
def capLookup (n : String) (caps : Caps) : Option Str :=
  (caps.find? (fun pr => pr.1 = n)).map (fun pr => pr.2)

/-- `parse(expression_list, string)`: return the capture dictionary of the
first expression whose anchored match succeeds, else `None`. -/
def parse : List RE → Str → Option Caps
  | [], _ => none
  | p :: rest, s =>
    match matchRE p s with
    | [] => parse rest s
    | pr :: _ => some pr.1

/-- Sequence of regex pieces (`reSeq [a, b, c]` is `abc`). -/
def reSeq : List RE → RE
  | [] => .eps
  | [r] => r
  | r :: rs => .cat r (reSeq rs)

/-- A literal character. -/
def chc (c : Char) : RE := .chr (· = c)

/-- A literal string. -/
def reLit (s : Str) : RE := reSeq (s.map chc)

/-- `.` (any character but newline). -/
def reDot : Char → Bool := (· ≠ '\n')

/-- `[0-9]`. -/
def reDigit : Char → Bool := Char.isDigit

/-- `[0-9]{4}`. -/
def reYear4 : RE := reSeq [.chr reDigit, .chr reDigit, .chr reDigit, .chr reDigit]

/-- `DIR_PATTERNS` of `get_tags_from_filesystem`, in source order. -/
def DIR_PATTERNS : List RE :=
  [ reSeq [.grp "artist" (.plusC reDot), .opt (chc ' '), chc '-', .opt (chc ' '),
      .grp "year" (.plusC reDigit), .opt (chc ' '), chc '-', .opt (chc ' '),
      .grp "album" (.plusC reDot)],
    reSeq [.grp "artist" (.plusC reDot), .opt (chc ' '), chc '[',
      .grp "year" (.plusC reDigit), chc ']', .opt (chc ' '),
      .grp "album" (.plusC reDot)],
    reSeq [.grp "artist" (.plusC reDot), .opt (chc ' '), chc '-', .opt (chc ' '),
      .grp "album" (.plusC reDot), chc ' ', chc '-', chc ' ', .opt (chc '('),
      .grp "year" reYear4, .opt (chc ')')],
    reSeq [.grp "artist" (.plusC reDot), .opt (chc ' '), chc '-', .opt (chc ' '),
      .grp "album" (.plusC reDot), chc ' ', .opt (chc '('),
      .grp "year" reYear4, .opt (chc ')')],
    reSeq [.grp "artist" (.plusC reDot), .opt (chc ' '), chc '-', .opt (chc ' '),
      .grp "album" (.plusC reDot), chc ' ', chc '(',
      .grp "year" reYear4, .opt (reLit " - Advance".data), chc ')'],
    reSeq [.opt (chc '['), .grp "year" (.plusC reDigit), .opt (chc ']'),
      .opt (chc ' '), chc '-', .opt (chc ' '), .grp "album" (.plusC reDot)],
    reSeq [.grp "year" (.plusC reDigit), chc '_', .grp "album" (.plusC reDot)],
    reSeq [.grp "year" (.plusC reDigit), .chr reDot, .starC (· = ' '),
      .grp "album" (.plusC reDot)],
    reSeq [.grp "artist" (.plusC reDot), .opt (chc ' '), chc '-', .opt (chc ' '),
      .grp "album" (.plusC reDot)],
    .grp "album" (.plusC reDot) ]

/-- `FILE_PATTERNS` of `get_tags_from_filesystem`, in source order. -/
def FILE_PATTERNS : List RE :=
  [ reSeq [.grp "number" (.plusC reDigit), .opt (chc ' '), chc '-', .opt (chc ' '),
      .grp "title" (.plusC reDot)],
    reSeq [.grp "number" (.plusC reDigit), chc '.', .grp "title" (.plusC reDot)],
    reSeq [.grp "number" (.plusC reDigit), chc '_', .grp "title" (.plusC reDot)],
    reSeq [.grp "number" (.plusC reDigit), chc ' ', .grp "title" (.plusC reDot)],
    reSeq [.grp "number" (.plusC reDigit), .grp "title" (.plusC reDot)],
    .grp "title" (.plusC reDot) ]

/-- `re.match(r'(.*[^ ]) ?- ?(.*)', title)` of the artist-in-title
cleanup, with numbered groups named "1" and "2". -/
def titleDupRE : RE :=
  reSeq [.grp "1" (reSeq [.starC reDot, .chr (· ≠ ' ')]), .opt (chc ' '),
    chc '-', .opt (chc ' '), .grp "2" (.starC reDot)]

/-- `re.match(r'([0-9]{4}).*', year)` followed by the truncate-or-drop of
lines 293–297: a year starting with four digits is truncated to them,
anything else becomes `None`. -/
def yearNormalize (y : Str) : Option Str :=
  if (y.take 4).length = 4 ∧ (y.take 4).all reDigit then some (y.take 4) else none

/-- A `TagInfo` record as it enters `repair_tags` (all textual fields
already decoded by `reencode_tags`; `number` may be an int or a string). -/
structure TagIn where
  artist : Str
  album : Str
  year : Str
  number : NumVal
  title : Str
deriving DecidableEq, Repr

/-- A `TagInfo` record after repair: `year` has become `None` or a
string (line 293–297), the other fields keep their shapes. -/
structure TagOut where
  artist : Str
  album : Str
  year : Option Str
  number : NumVal
  title : Str
deriving DecidableEq, Repr

/-- The command-line arguments `repair_tags` consults. -/
structure Args where
  FORCE_FS_TAGS : Bool
  ARTIST : Str
  ALBUM : Str
  YEAR : Str
  SEPARATOR : Str
deriving DecidableEq, Repr

/-- Lines 229–239: merge the embedded record `e` with the
filesystem-inferred record `f`, then apply the forced overrides. -/
def merge (a : Args) (f e : TagIn) : TagIn :=
  let artist := if (a.FORCE_FS_TAGS || e.artist = []) && f.artist ≠ [] then f.artist else e.artist
  let year := if (a.FORCE_FS_TAGS || e.year = []) && f.year ≠ [] then f.year else e.year
  let album := if (a.FORCE_FS_TAGS || e.album = []) && f.album ≠ [] then f.album else e.album
  let number := if (a.FORCE_FS_TAGS || !truthyNum e.number) && truthyNum f.number then f.number
    else e.number
  let title := if (a.FORCE_FS_TAGS || e.title = []) && f.title ≠ [] then f.title else e.title
  { artist := if a.ARTIST ≠ [] then a.ARTIST else artist,
    album := if a.ALBUM ≠ [] then a.ALBUM else album,
    year := if a.YEAR ≠ [] then a.YEAR else year,
    number := number,
    title := title }

/-- Lines 242–244: drop a trailing `CD<n>` path segment from the album;
`none` models the `TypeError` `reduce` raises when the album itself is a
single `CD<n>` segment (empty sequence, no initial value). -/
def stageAlbumCD (album : Str) : Option Str :=
  let parts := split_path album
  if matchesCDMarker (parts.getLastD []) then joinPath parts.dropLast
  else some album

/-- Lines 245–253: strip the fixed noise substrings from album and artist. -/
def stageNoise (album artist : Str) : Str × Str :=
  let album := pyReplace album "(Deluxe Edition)".data []
  let album := pyReplace album "(320k)".data []
  let album := pyReplace album "(limited edition)".data []
  let album := pyReplace album "[DemonUploader]".data []
  let album := pyReplace album " (Remastered)".data []
  let artist := pyReplace artist "[Discography]".data []
  let artist := pyReplace artist " - дискография".data []
  let artist := pyReplace artist "-Collection.2000-2008.MP3.320kbps".data []
  let artist := pyReplace artist "The.".data "The ".data
  (album, artist)

/-- The diagnostic printed when the track number cannot be coerced. -/
def numDiag (v : NumVal) : Str := "Track number is not a number: ".data ++ numStr v

/-- Lines 255–259: coerce the number to an integer; on failure emit the
diagnostic and fall back to the filesystem record's number. -/
def stageNumber (numIn fsNum : NumVal) : NumVal × List Str :=
  match pyIntNum numIn with
  | some n => (.i n, [])
  | none => (fsNum, [numDiag numIn])

/-- Lines 261–265: replace the separator and underscores in the title by
spaces, then strip a leading stringified-track-number prefix when a
separator character follows it; `none` models the `IndexError` of
`title[len(str(number))]` when the lookup is out of range. -/
def titleStep (sep title : Str) (number : NumVal) : Option Str :=
  let t := pyReplace (pyReplace title sep " ".data) "_".data " ".data
  if (numStr number).isPrefixOf t then
    match t.drop (numStr number).length with
    | [] => none
    | c :: rest =>
      if c = '-' || c = '.' || c = ' ' || c = '_' then some (lstrip (c :: rest))
      else some t
  else some t

/-- `taginfo.number + k`; `none` models the `TypeError` of `+=` when the
number is still a string. -/
def numAdd (v : NumVal) (k : Int) : Option NumVal :=
  match v with
  | .i n => some (.i (n + k))
  | .s _ => none

/-- Lines 267–273: replace the separator in the album, then handle the
`CD 1` / `CD 2` markers (strip the dash form, add 100/200). -/
def discStep (sep album : Str) (number : NumVal) : Option (Str × NumVal) :=
  let a := pyReplace album sep " ".data
  let step1 : Option (Str × NumVal) :=
    if containsSub "CD 1".data a then
      (numAdd number 100).map (fun n => (pyReplace a " - CD 1".data [], n))
    else some (a, number)
  match step1 with
  | none => none
  | some (a1, n1) =>
    if containsSub "CD 2".data a1 then
      (numAdd n1 200).map (fun n => (pyReplace a1 " - CD 2".data [], n))
    else some (a1, n1)

/-- Lines 275–301: the remaining pure repair steps (separator replacement
on the artist, strips, space collapse, artist-in-title cleanup, year
normalization, capitalisation). -/
def stageFinal (sep artist album title year : Str) (number : NumVal) : TagOut :=
  let artist := pyReplace (pyReplace artist sep " ".data) sep " ".data
  let title := pyStrip title
  let artist := pyStrip artist
  let album := pyStrip album
  let year := pyStrip year
  let artist := collapseSpaces artist
  let album := collapseSpaces album
  let title := collapseSpaces title
  let title :=
    match (matchRE titleDupRE title).head? with
    | some pr =>
      if pyLower ((capLookup "1" pr.1).getD []) = pyLower artist then
        (capLookup "2" pr.1).getD []
      else title
    | none => title
  let year := yearNormalize year
  let album := capitalizeWords album
  let title := capitalizeWords title
  let artist := capitalizeWords artist
  { artist := artist, album := album, year := year, number := number, title := title }

/-- The per-file body of `repair_tags` (lines 228–301) for one record:
merge with the filesystem record `f`, then the repair steps; `none`
models an uncaught exception. -/
def repairOne (a : Args) (f e : TagIn) : Option (TagOut × List Str) :=
  let t := merge a f e
  match stageAlbumCD t.album with
  | none => none
  | some al0 =>
    let pr := stageNoise al0 t.artist
    let nr := stageNumber t.number f.number
    match titleStep a.SEPARATOR t.title nr.1 with
    | none => none
    | some ti1 =>
      match discStep a.SEPARATOR pr.1 nr.1 with
      | none => none
      | some anr =>
        some (stageFinal a.SEPARATOR pr.2 anr.1 ti1 t.year anr.2, nr.2)

/-- The per-file loop of `repair_tags` over the (insertion-ordered)
collection, with the filesystem records supplied as a lookup function;
diagnostics accumulate across records, an uncaught exception (`none`)
aborts the whole batch as in Python. -/
def repair_files (a : Args) (fs : Str → TagIn) :
    List (Str × TagIn) → Option (List (Str × TagOut) × List Str)
  | [] => some ([], [])
  | (fn, e) :: rest =>
    match repairOne a (fs fn) e with
    | none => none
    | some (r, d) =>
      match repair_files a fs rest with
      | none => none
      | some (rs, ds) => some ((fn, r) :: rs, d ++ ds)

/-- Fuel core of `dictKeys`; filtering only shortens the list, so fuel
`l.length` never runs out. -/
def dictKeysF {α : Type} [DecidableEq α] : Nat → List α → List α
  | _, [] => []
  | 0, _ :: _ => []
  | fuel + 1, a :: l => a :: dictKeysF fuel (l.filter (fun b => ¬ b = a))

/-- `get_most_frequent_value`: keys of the counting dict in insertion
order (order of first occurrence). -/
def dictKeys {α : Type} [DecidableEq α] (l : List α) : List α :=
  dictKeysF l.length l

/-- Multiplicity of a value in the list (`frequencies[value]`). -/
def countOcc {α : Type} [DecidableEq α] (l : List α) (x : α) : Nat :=
  (l.filter (fun b => b = x)).length

/-- `max(frequencies.values()) if frequencies else 0`. -/
def maxFreqOf {α : Type} [DecidableEq α] (l : List α) : Nat :=
  ((dictKeys l).map (countOcc l)).foldl Nat.max 0

/-- `get_most_frequent_value(valuelist)`: the first key (in insertion
order) whose count equals the maximal count; `None` when the list is
empty. -/
def get_most_frequent_value {α : Type} [DecidableEq α] (l : List α) : Option α :=
  (dictKeys l).find? (fun k => countOcc l k = maxFreqOf l)

/-- Lines 303–305: overwrite every record's year with `y`. -/
def setYears (y : Option Str) (recs : List (Str × TagOut)) : List (Str × TagOut) :=
  recs.map (fun p => (p.1, { p.2 with year := y }))

/-- Lines 307–309: overwrite every record's artist with `v`. -/
def setArtists (v : Str) (recs : List (Str × TagOut)) : List (Str × TagOut) :=
  recs.map (fun p => (p.1, { p.2 with artist := v }))

/-- Lines 307–309: the artist half of the consensus pass.  (For a
nonempty collection `get_most_frequent_value` returns `some`; on the
empty collection the Python loop runs zero times, which the `none`
branch also models.) -/
def artistPass (recs : List (Str × TagOut)) : List (Str × TagOut) :=
  match get_most_frequent_value (recs.map (fun p => p.2.artist)) with
  | some v => setArtists v recs
  | none => recs

/-- Lines 303–309: the consensus pass, overwriting every record's year and
artist with the most frequent value across the collection (the year vote
happens first, the artist vote is taken on the year-updated records). -/
def consensus (recs : List (Str × TagOut)) : List (Str × TagOut) :=
  artistPass (setYears
    ((get_most_frequent_value (recs.map (fun p => p.2.year))).getD none) recs)

/-- `repair_tags` lines 225–309, with the filesystem records supplied as a
lookup function: per-file repair followed by the consensus pass. -/
def repair_tags_core (a : Args) (fs : Str → TagIn) (tags : List (Str × TagIn)) :
    Option (List (Str × TagOut) × List Str) :=
  (repair_files a fs tags).map (fun pr => (consensus pr.1, pr.2))

/-- Lines 197–198 of `get_tags_from_filesystem`: the artist fallback used
when the directory patterns captured no artist, with the process working
directory `cwd` made explicit (it enters through `os.path.abspath`). -/
def uplevelDir (cwd dirname : Str) : Str :=
  basename (normpath (pyReplace (abspath cwd dirname) dirname []))

/-- Lines 196–199: the fallback artist, with the trailing discography
marker stripped. -/
def fallbackArtist (cwd dirname : Str) : Str :=
  pyReplace (uplevelDir cwd dirname) " - Discography".data []

/-- The artist computed by `get_tags_from_filesystem` for a file in
directory `dirname` (lines 188–199): the directory-pattern capture when
present, else the fallback. -/
def inferArtist (cwd dirname : Str) : Str :=
  let a0 := ((parse DIR_PATTERNS dirname).bind (capLookup "artist")).getD []
  if a0 = [] then fallbackArtist cwd dirname else a0

/-- One iteration of `get_tags_from_filesystem` (lines 170–219) for the
file `filepath` with 1-based sequence index `index`. -/
def get_tags_one (cwd : Str) (index : Nat) (filepath : Str) : TagIn :=
  let dirname := (osSplit filepath).1
  let filename := (splitextBase (osSplit filepath).2).1
  let dirCaps := parse DIR_PATTERNS dirname
  let year := (dirCaps.bind (capLookup "year")).getD []
  let album := (dirCaps.bind (capLookup "album")).getD []
  let artist := inferArtist cwd dirname
  let fileCaps := parse FILE_PATTERNS filename
  let number0 : NumVal :=
    match fileCaps.bind (capLookup "number") with
    | some v => .s v
    | none => .i 0
  let number := if truthyNum number0 then number0 else .i (index : Int)
  let title := (fileCaps.bind (capLookup "title")).getD []
  { artist := artist, album := album, year := year, number := number, title := title }

/-- `get_tags_from_filesystem(filepaths)` as an association list, indices
starting at 1 as in `enumerate(filepaths, 1)`. -/
def get_tags_from_filesystem (cwd : Str) (filepaths : List Str) : List (Str × TagIn) :=
  (filepaths.enum).map (fun pr => (pr.2, get_tags_one cwd (pr.1 + 1) pr.2))

/-- Lookup in the filesystem-record association list; the default is never
reached when every key of `tags` occurs in the list. -/
def fsLookup (fsTags : List (Str × TagIn)) (fn : Str) : TagIn :=
  ((fsTags.find? (fun p => p.1 = fn)).map (fun p => p.2)).getD
    { artist := [], album := [], year := [], number := .i 0, title := [] }

/-- Lexicographic `≤` on code points, Python's string sort order. -/
def strLe (a b : Str) : Bool :=
  match a, b with
  | [], _ => true
  | _ :: _, [] => false
  | c :: a', d :: b' => if c = d then strLe a' b' else decide (c < d)

/-- Stable insertion used by `pySorted`. -/
def insertSorted (x : Str) : List Str → List Str
  | [] => [x]
  | y :: l => if strLe x y then x :: y :: l else y :: insertSorted x l

/-- Python `sorted` on strings: a stable sort by code-point order (the
output of a stable sort is unique, so insertion sort models it). -/
def pySorted (l : List Str) : List Str := l.foldr insertSorted []

/-- `repair_tags(tags, args)` in full (line 222–311): filesystem records
computed from the sorted key list, then per-file repair and consensus. -/
def repair_tags (cwd : Str) (a : Args) (tags : List (Str × TagIn)) :
    Option (List (Str × TagOut) × List Str) :=
  let fsTags := get_tags_from_filesystem cwd (pySorted (tags.map (fun p => p.1)))
  repair_tags_core a (fsLookup fsTags) tags

/-- One step of `get_max_common_beginning`'s loop: cut the running
candidate at the first position where it disagrees with `seq` (the
Python `comps.index(False)` cut); if no disagreement occurs within the
overlap the candidate is unchanged. -/
def gmcbStep {α : Type} [DecidableEq α] : List α → List α → List α
  | m, [] => m
  | [], _ :: _ => []
  | a :: m, b :: s => if a = b then a :: gmcbStep m s else []

/-- `get_max_common_beginning(sequences)`: `None` on the empty list, else
the fold of the cut step over all sequences starting from the first. -/
def get_max_common_beginning {α : Type} [DecidableEq α] :
    List (List α) → Option (List α)
  | [] => none
  | s :: rest => some ((s :: rest).foldl gmcbStep s)

/-- `guess_encoding` (lines 313–327) on the list of classifier guesses:
the `if non_ascii_encodings:` test is always true in Python (a `filter`
object is truthy), so the ascii guesses are always discarded. -/
def guess_encoding (guesses : List Str) : Option Str :=
  get_most_frequent_value (guesses.filter (fun g => g ≠ "ascii".data))

/-- The encoding-resolution part of `reencode_tags` (lines 330–339): a
nonempty caller override wins, else the guess, else `'ascii'`. -/
def resolveEncoding (override : Str) (guesses : List Str) : Str :=
  if override ≠ [] then override
  else
    match guess_encoding guesses with
    | some e => e
    | none => "ascii".data

/-- Index of the first occurrence of `x` (length of the list when absent);
used to express the "first encountered" tie-break of the spec. -/
def firstIdx {α : Type} [DecidableEq α] (x : α) : List α → Nat
  | [] => 0
  | a :: l => if a = x then 0 else firstIdx x l + 1

/-- Specification-side reading of "the single most frequent value, ties
broken by first-encountered order": `r` occurs in `l`, no value occurs
more often, and any value occurring equally often first occurs no earlier. -/
def MostFreqFirst {α : Type} [DecidableEq α] (l : List α) (r : α) : Prop :=
  r ∈ l ∧ (∀ x ∈ l, countOcc l x ≤ countOcc l r) ∧
    (∀ x ∈ l, countOcc l x = countOcc l r → firstIdx r l ≤ firstIdx x l)

/-- Specification-side shape of a post-reconciliation year: absent or a
4-digit string. -/
def NormalizedYear (o : Option Str) : Prop :=
  o = none ∨ ∃ y, o = some y ∧ y.length = 4 ∧ y.all reDigit = true

/-- A well-formed path segment: nonempty, free of `/`, and not one of the
special components `.` and `..` that `normpath` rewrites. -/
def WfSeg (s : Str) : Prop :=
  s ≠ [] ∧ s.all (· ≠ '/') = true ∧ s ≠ ".".data ∧ s ≠ "..".data

/-- The absolute normalized path with the given segments. -/
def absOf (segs : List Str) : Str := '/' :: joinWith "/".data segs

/-- Arguments with no overrides and the default separator, used by the
concrete counterexamples and witnesses. -/
def args0 : Args := ⟨false, [], [], [], " ".data⟩

/-- A collection of three embedded records, two with an empty year and
one with year `1999` (all other fields uniform and harmless). -/
def tagsYears0 : List (Str × TagIn) :=
  [ ("a".data, ⟨"Ar".data, "Al".data, [], .s "1".data, "T".data⟩),
    ("b".data, ⟨"Ar".data, "Al".data, [], .s "1".data, "T".data⟩),
    ("c".data, ⟨"Ar".data, "Al".data, "1999".data, .s "1".data, "T".data⟩) ]

/-- One embedded record whose track number is not numeric, for a file
whose name carries the track number `07`. -/
def tagsNum0 : List (Str × TagIn) :=
  [ ("d/07 - x.mp3".data, ⟨"Ar".data, "Al".data, "1999".data, .s "abc".data, "T".data⟩) ]

/-! ### Generic list lemmas -/

theorem take_isPre {α : Type} (l : List α) (n : Nat) : l.take n <+: l :=
  ⟨l.drop n, List.take_append_drop n l⟩

theorem isPre_take_mono {α : Type} {r m : List α} (h : r <+: m) (n : Nat) :
    r.take n <+: m.take n := by
  obtain ⟨t, rfl⟩ := h
  induction r generalizing n with
  | nil => exact ⟨(([] : List α) ++ t).take n, by simp⟩
  | cons a r' ih =>
    cases n with
    | zero => exact ⟨((a :: r' ++ t)).take 0, by simp⟩
    | succ n =>
      obtain ⟨u, hu⟩ := ih n
      exact ⟨u, by simpa using congrArg (a :: ·) hu⟩

/-! ### `get_max_common_beginning` (claim C2) -/

theorem gmcbStep_pre {α : Type} [DecidableEq α] :
    ∀ (m s : List α), gmcbStep m s <+: m := by
  intro m
  induction m with
  | nil =>
    intro s
    cases s with
    | nil => exact ⟨[], rfl⟩
    | cons b s' => exact ⟨[], rfl⟩
  | cons a m' ih =>
    intro s
    cases s with
    | nil => exact ⟨[], by simp [gmcbStep]⟩
    | cons b s' =>
      by_cases hab : a = b
      · subst hab
        obtain ⟨u, hu⟩ := ih s'
        exact ⟨u, by simp [gmcbStep, hu]⟩
      · exact ⟨a :: m', by simp [gmcbStep, hab]⟩

theorem gmcbStep_agree {α : Type} [DecidableEq α] :
    ∀ (m s : List α), (gmcbStep m s).take s.length <+: s := by
  intro m
  induction m with
  | nil =>
    intro s
    cases s with
    | nil => exact ⟨[], rfl⟩
    | cons b s' => exact ⟨b :: s', by simp [gmcbStep]⟩
  | cons a m' ih =>
    intro s
    cases s with
    | nil => exact ⟨[], by simp [gmcbStep]⟩
    | cons b s' =>
      by_cases hab : a = b
      · subst hab
        obtain ⟨u, hu⟩ := ih s'
        refine ⟨u, ?_⟩
        simpa [gmcbStep] using congrArg (a :: ·) hu
      · exact ⟨b :: s', by simp [gmcbStep, hab]⟩

theorem agree_of_pre_agree {α : Type} {r m s : List α}
    (hrm : r <+: m) (hms : m.take s.length <+: s) : r.take s.length <+: s := by
  have h1 : r.take s.length <+: m.take s.length := isPre_take_mono hrm s.length
  exact h1.trans hms

theorem gmcbStep_common {α : Type} [DecidableEq α] :
    ∀ (t m s : List α), t <+: m → t <+: s → t <+: gmcbStep m s := by
  intro t
  induction t with
  | nil => intro m s _ _; exact ⟨gmcbStep m s, by simp⟩
  | cons c t' ih =>
    intro m s hm hs
    obtain ⟨u, hu⟩ := hm
    obtain ⟨v, hv⟩ := hs
    cases m with
    | nil => exact absurd hu (by simp)
    | cons a m' =>
      cases s with
      | nil => exact absurd hv (by simp)
      | cons b s' =>
        have hca : c = a := by simpa using congrArg (fun l => l.head?) hu
        have hcb : c = b := by simpa using congrArg (fun l => l.head?) hv
        subst hca
        have hab : c = b := hcb
        subst hab
        have ht'm : t' <+: m' := ⟨u, by simpa using hu⟩
        have ht's : t' <+: s' := ⟨v, by simpa using hv⟩
        obtain ⟨w, hw⟩ := ih m' s' ht'm ht's
        exact ⟨w, by simp [gmcbStep, ← hw]⟩

theorem gmcb_fold_pre {α : Type} [DecidableEq α] :
    ∀ (l : List (List α)) (m : List α), List.foldl gmcbStep m l <+: m := by
  intro l
  induction l with
  | nil => intro m; exact ⟨[], by simp⟩
  | cons s rest ih =>
    intro m
    exact (ih (gmcbStep m s)).trans (gmcbStep_pre m s)

theorem gmcb_fold_agree {α : Type} [DecidableEq α] :
    ∀ (l : List (List α)) (m s : List α), s ∈ l →
      (List.foldl gmcbStep m l).take s.length <+: s := by
  intro l
  induction l with
  | nil => intro m s hs; exact absurd hs (by simp)
  | cons s0 rest ih =>
    intro m s hs
    rcases List.mem_cons.mp hs with h | h
    · subst h
      exact agree_of_pre_agree (gmcb_fold_pre rest (gmcbStep m s)) (gmcbStep_agree m s)
    · exact ih (gmcbStep m s0) s h

theorem gmcb_fold_common {α : Type} [DecidableEq α] :
    ∀ (l : List (List α)) (m t : List α), (∀ s ∈ l, t <+: s) → t <+: m →
      t <+: List.foldl gmcbStep m l := by
  intro l
  induction l with
  | nil => intro m t _ hm; simpa using hm
  | cons s0 rest ih =>
    intro m t hl hm
    exact ih _ t (fun s hs => hl s (List.mem_cons_of_mem _ hs))
      (gmcbStep_common t m s0 hm (hl s0 (by simp)))

/-- Claim C2, amended.  `get_max_common_beginning` returns the absent
result on the empty list.  On a nonempty list its result `r` agrees with
every input sequence on their overlap (so `r` is a prefix of every input
that is at least as long as `r`), and every common prefix of all the
inputs is a prefix of `r` (hence no sequence longer than `r` is a common
prefix).  The original claim's stronger statement, that `r` is a prefix
of every input, fails when an input is a proper prefix of `r`
(see the counterexample). -/
theorem C2_thm :
    get_max_common_beginning ([] : List (List Str)) = none ∧
    ∀ (l : List (List Str)) (r : List Str), get_max_common_beginning l = some r →
      (∀ s ∈ l, r.take s.length <+: s) ∧
      (∀ t : List Str, (∀ s ∈ l, t <+: s) → t <+: r) := by
  refine ⟨rfl, ?_⟩
  intro l r hr
  cases l with
  | nil => exact absurd hr (by simp [get_max_common_beginning])
  | cons s0 rest =>
    have hr' : r = List.foldl gmcbStep s0 (s0 :: rest) := by
      simpa [get_max_common_beginning] using hr.symm
    subst hr'
    refine ⟨fun s hs => gmcb_fold_agree _ _ s hs, fun t ht => ?_⟩
    exact gmcb_fold_common _ _ t ht (ht s0 (by simp))

/-- Counterexample to claim C2 as stated: on input `[["a","b"], ["a"]]`
the function returns `["a","b"]`, which is not a prefix of the input
sequence `["a"]`. -/
theorem C2_cex :
    get_max_common_beginning [["a".data, "b".data], ["a".data]] =
      some ["a".data, "b".data] ∧
    ¬ ["a".data, "b".data] <+: ["a".data] := by
  constructor
  · rfl
  · intro h
    have := h.length_le
    simp at this

/-- Witness for C2's amended theorem at the input `[["a"], ["a","b"]]`. -/
theorem C2_wit :
    (∀ s ∈ [["a".data], ["a".data, "b".data]],
      (["a".data].take s.length) <+: s) ∧
    (∀ t : List Str, (∀ s ∈ [["a".data], ["a".data, "b".data]], t <+: s) →
      t <+: ["a".data]) :=
  C2_thm.2 [["a".data], ["a".data, "b".data]] ["a".data] rfl

/-! ### Fuel-irrelevance equations -/

theorem pyReplaceF_irrel (rep pat : Str) :
    ∀ (f1 : Nat) (s : Str) (f2 : Nat), s.length ≤ f1 → s.length ≤ f2 →
      pyReplaceF rep pat f1 s = pyReplaceF rep pat f2 s := by
  intro f1
  induction f1 with
  | zero =>
    intro s f2 h1 _
    obtain rfl : s = [] := List.length_eq_zero.mp (Nat.le_zero.mp h1)
    cases f2 <;> rfl
  | succ f ih =>
    intro s f2 h1 h2
    cases s with
    | nil => cases f2 <;> rfl
    | cons c s' =>
      cases f2 with
      | zero => simp at h2
      | succ g =>
        simp only [pyReplaceF]
        simp only [List.length_cons] at h1 h2
        have hd : (s'.drop (pat.length - 1)).length ≤ s'.length := by
          simp [List.length_drop]
        rw [ih (s'.drop (pat.length - 1)) g (by omega) (by omega),
          ih s' g (by omega) (by omega)]

theorem pyReplace_nil (pat rep : Str) :
    pyReplace [] pat rep = if pat = [] then rep else [] := rfl

theorem pyReplace_cons (c : Char) (s' pat rep : Str) :
    pyReplace (c :: s') pat rep =
      if pat ≠ [] && pat.isPrefixOf (c :: s') then
        rep ++ pyReplace (s'.drop (pat.length - 1)) pat rep
      else
        (if pat = [] then rep else []) ++ c :: pyReplace s' pat rep := by
  show pyReplaceF rep pat (s'.length + 1) (c :: s') = _
  simp only [pyReplaceF, pyReplace]
  rw [pyReplaceF_irrel rep pat s'.length (s'.drop (pat.length - 1))
      (s'.drop (pat.length - 1)).length (by simp [List.length_drop]) (le_refl _)]

theorem dictKeysF_irrel {α : Type} [DecidableEq α] :
    ∀ (f1 : Nat) (l : List α) (f2 : Nat), l.length ≤ f1 → l.length ≤ f2 →
      dictKeysF f1 l = dictKeysF f2 l := by
  intro f1
  induction f1 with
  | zero =>
    intro l f2 h1 _
    obtain rfl : l = [] := List.length_eq_zero.mp (Nat.le_zero.mp h1)
    cases f2 <;> rfl
  | succ f ih =>
    intro l f2 h1 h2
    cases l with
    | nil => cases f2 <;> rfl
    | cons a t =>
      cases f2 with
      | zero => simp at h2
      | succ g =>
        simp only [dictKeysF]
        simp only [List.length_cons] at h1 h2
        have hf := List.length_filter_le (fun b => decide ¬ b = a) t
        rw [ih (t.filter (fun b => ¬ b = a)) g (by omega) (by omega)]

/-! ### `get_most_frequent_value` (claims C1, C6, C8) -/

theorem dictKeys_cons {α : Type} [DecidableEq α] (a : α) (l : List α) :
    dictKeys (a :: l) = a :: dictKeys (l.filter (fun b => ¬ b = a)) := by
  show dictKeysF (l.length + 1) (a :: l) = _
  simp only [dictKeysF, dictKeys]
  have hf := List.length_filter_le (fun b => decide ¬ b = a) l
  rw [dictKeysF_irrel l.length (l.filter (fun b => ¬ b = a))
      (l.filter (fun b => ¬ b = a)).length (by omega) (le_refl _)]

theorem mem_dictKeys {α : Type} [DecidableEq α] :
    ∀ (l : List α) (x : α), x ∈ dictKeys l ↔ x ∈ l := by
  suffices h : ∀ (n : Nat) (l : List α), l.length ≤ n →
      ∀ x, (x ∈ dictKeys l ↔ x ∈ l) by
    intro l x
    exact h l.length l (le_refl _) x
  intro n
  induction n with
  | zero =>
    intro l hl x
    obtain rfl : l = [] := List.length_eq_zero.mp (Nat.le_zero.mp hl)
    simp [dictKeys, dictKeysF]
  | succ n ih =>
    intro l hl x
    cases l with
    | nil => simp [dictKeys, dictKeysF]
    | cons a t =>
      rw [dictKeys_cons]
      have hlen : (t.filter (fun b => ¬ b = a)).length ≤ n := by
        have := List.length_filter_le (fun b => decide ¬ b = a) t
        simp only [List.length_cons] at hl
        omega
      have ihf := ih (t.filter (fun b => ¬ b = a)) hlen x
      by_cases hxa : x = a
      · subst hxa; simp
      · simp only [List.mem_cons, ihf, List.mem_filter]
        simp [hxa]

theorem firstIdx_cons_ne {α : Type} [DecidableEq α] {a x : α} (l : List α)
    (h : a ≠ x) : firstIdx x (a :: l) = firstIdx x l + 1 := by
  simp [firstIdx, h]

theorem firstIdx_filter_lt {α : Type} [DecidableEq α] (p : α → Bool) :
    ∀ (l : List α) (x y : α), x ∈ l.filter p → y ∈ l.filter p →
      firstIdx x (l.filter p) < firstIdx y (l.filter p) →
      firstIdx x l < firstIdx y l := by
  intro l
  induction l with
  | nil => intro x y hx; simp at hx
  | cons c t ih =>
    intro x y hx hy hlt
    have hxp : p x = true := (List.mem_filter.mp hx).2
    have hyp : p y = true := (List.mem_filter.mp hy).2
    by_cases hpc : p c = true
    · have hf : (c :: t).filter p = c :: t.filter p := by simp [hpc]
      rw [hf] at hx hy hlt
      by_cases hxc : c = x
      · subst hxc
        have h0 : firstIdx c (c :: t) = 0 := by simp [firstIdx]
        have hyc : c ≠ y := by
          intro hcy
          subst hcy
          simp [firstIdx] at hlt
        rw [h0, firstIdx_cons_ne t hyc]
        omega
      · have hyc : c ≠ y := by
          intro hcy
          subst hcy
          rw [firstIdx_cons_ne (t.filter p) hxc] at hlt
          simp [firstIdx] at hlt
        rw [firstIdx_cons_ne (t.filter p) hxc, firstIdx_cons_ne (t.filter p) hyc] at hlt
        have hx' : x ∈ t.filter p := by
          rcases List.mem_cons.mp hx with h | h
          · exact absurd h.symm hxc
          · exact h
        have hy' : y ∈ t.filter p := by
          rcases List.mem_cons.mp hy with h | h
          · exact absurd h.symm hyc
          · exact h
        rw [firstIdx_cons_ne t hxc, firstIdx_cons_ne t hyc]
        have := ih x y hx' hy' (by omega)
        omega
    · have hpc' : p c = false := by simpa using hpc
      have hf : (c :: t).filter p = t.filter p := by
        simp [List.filter_cons, hpc']
      rw [hf] at hx hy hlt
      have hxc : c ≠ x := by intro h; subst h; rw [hxp] at hpc; exact hpc rfl
      have hyc : c ≠ y := by intro h; subst h; rw [hyp] at hpc; exact hpc rfl
      rw [firstIdx_cons_ne t hxc, firstIdx_cons_ne t hyc]
      have := ih x y hx hy hlt
      omega

theorem dictKeys_pairwise {α : Type} [DecidableEq α] :
    ∀ (l : List α), (dictKeys l).Pairwise (fun u v => firstIdx u l < firstIdx v l) := by
  suffices h : ∀ (n : Nat) (l : List α), l.length ≤ n →
      (dictKeys l).Pairwise (fun u v => firstIdx u l < firstIdx v l) by
    intro l
    exact h l.length l (le_refl _)
  intro n
  induction n with
  | zero =>
    intro l hl
    obtain rfl : l = [] := List.length_eq_zero.mp (Nat.le_zero.mp hl)
    simp [dictKeys, dictKeysF]
  | succ n ih =>
    intro l hl
    cases l with
    | nil => simp [dictKeys, dictKeysF]
    | cons a t =>
      rw [dictKeys_cons]
      have hlen : (t.filter (fun b => ¬ b = a)).length ≤ n := by
        have := List.length_filter_le (fun b => decide ¬ b = a) t
        simp only [List.length_cons] at hl
        omega
      refine List.Pairwise.cons ?_ ?_
      · intro v hv
        have hvf : v ∈ t.filter (fun b => ¬ b = a) :=
          (mem_dictKeys _ v).mp hv
        have hva : ¬ v = a := by simpa using (List.mem_filter.mp hvf).2
        have h0 : firstIdx a (a :: t) = 0 := by simp [firstIdx]
        have hv1 : firstIdx v (a :: t) = firstIdx v t + 1 :=
          firstIdx_cons_ne t (fun h => hva h.symm)
        omega
      · have ihp := ih (t.filter (fun b => ¬ b = a)) hlen
        refine List.Pairwise.imp_of_mem ?_ ihp
        intro u v hu hv hlt
        have huf : u ∈ t.filter (fun b => ¬ b = a) := (mem_dictKeys _ u).mp hu
        have hvf : v ∈ t.filter (fun b => ¬ b = a) := (mem_dictKeys _ v).mp hv
        have hua : ¬ u = a := by simpa using (List.mem_filter.mp huf).2
        have hva : ¬ v = a := by simpa using (List.mem_filter.mp hvf).2
        have := firstIdx_filter_lt (fun b => ¬ b = a) t u v huf hvf hlt
        rw [firstIdx_cons_ne t (fun h => hua h.symm),
          firstIdx_cons_ne t (fun h => hva h.symm)]
        omega

theorem le_foldl_max : ∀ (m : List Nat) (i : Nat), i ≤ m.foldl Nat.max i := by
  intro m
  induction m with
  | nil => intro i; simp
  | cons a t ih =>
    intro i
    exact le_trans (Nat.le_max_left i a) (ih (Nat.max i a))

theorem mem_le_foldl_max : ∀ (m : List Nat) (i : Nat), ∀ a ∈ m, a ≤ m.foldl Nat.max i := by
  intro m
  induction m with
  | nil => intro i a ha; simp at ha
  | cons b t ih =>
    intro i a ha
    rcases List.mem_cons.mp ha with h | h
    · subst h
      exact le_trans (Nat.le_max_right i a) (le_foldl_max t (Nat.max i a))
    · exact ih (Nat.max i b) a h

theorem foldl_max_mem : ∀ (m : List Nat) (i : Nat),
    m.foldl Nat.max i = i ∨ m.foldl Nat.max i ∈ m := by
  intro m
  induction m with
  | nil => intro i; simp
  | cons b t ih =>
    intro i
    rcases ih (Nat.max i b) with h | h
    · simp only [List.foldl_cons]
      rcases Nat.le_total i b with hm | hm
      · have hmb : i.max b = b := Nat.max_eq_right hm
        rw [h, hmb]
        exact Or.inr (by simp)
      · have hmi : i.max b = i := Nat.max_eq_left hm
        rw [h, hmi]
        exact Or.inl rfl
    · exact Or.inr (List.mem_cons_of_mem b (by simpa using h))

theorem find?_decomp {α : Type} (p : α → Bool) :
    ∀ (l : List α) (r : α), l.find? p = some r →
      p r = true ∧ ∃ l1 l2, l = l1 ++ r :: l2 ∧ ∀ x ∈ l1, p x = false := by
  intro l
  induction l with
  | nil => intro r h; simp at h
  | cons a t ih =>
    intro r h
    by_cases hpa : p a = true
    · rw [List.find?_cons_of_pos _ hpa] at h
      obtain rfl : a = r := by simpa using h
      exact ⟨hpa, [], t, by simp⟩
    · have hpa' : p a = false := by simpa using hpa
      rw [List.find?_cons_of_neg _ (by simp [hpa'])] at h
      obtain ⟨hr, l1, l2, hdec, hall⟩ := ih r h
      refine ⟨hr, a :: l1, l2, by simp [hdec], ?_⟩
      intro x hx
      rcases List.mem_cons.mp hx with hxa | hx1
      · subst hxa; exact hpa'
      · exact hall x hx1

theorem find?_isSome_of {α : Type} (p : α → Bool) :
    ∀ (l : List α) (x : α), x ∈ l → p x = true → (l.find? p).isSome := by
  intro l
  induction l with
  | nil => intro x hx; simp at hx
  | cons a t ih =>
    intro x hx hp
    by_cases hpa : p a = true
    · simp [List.find?_cons_of_pos _ hpa]
    · rw [List.find?_cons_of_neg _ (by simpa using hpa)]
      rcases List.mem_cons.mp hx with hxa | hx1
      · subst hxa; exact absurd hp hpa
      · exact ih x hx1 hp

theorem countOcc_pos {α : Type} [DecidableEq α] (l : List α) (x : α) (h : x ∈ l) :
    1 ≤ countOcc l x := by
  have : x ∈ l.filter (fun b => b = x) := List.mem_filter.mpr ⟨h, by simp⟩
  have := List.length_pos.mpr (List.ne_nil_of_mem this)
  simpa [countOcc] using this

theorem countOcc_le_maxFreq {α : Type} [DecidableEq α] (l : List α) (x : α) (h : x ∈ l) :
    countOcc l x ≤ maxFreqOf l := by
  have hx : x ∈ dictKeys l := (mem_dictKeys l x).mpr h
  exact mem_le_foldl_max _ 0 (countOcc l x) (List.mem_map_of_mem (countOcc l) hx)

theorem gmfv_mem {α : Type} [DecidableEq α] (l : List α) (r : α)
    (h : get_most_frequent_value l = some r) : r ∈ l := by
  obtain ⟨_, l1, l2, hdec, _⟩ := find?_decomp _ _ _ h
  have : r ∈ dictKeys l := by rw [hdec]; simp
  exact (mem_dictKeys l r).mp this

theorem gmfv_spec {α : Type} [DecidableEq α] (l : List α) (h : l ≠ []) :
    ∃ r, get_most_frequent_value l = some r ∧ MostFreqFirst l r := by
  obtain ⟨a, t, rfl⟩ := List.exists_cons_of_ne_nil h
  set l := a :: t with hl
  have hmax_mem : ∃ k ∈ dictKeys l, countOcc l k = maxFreqOf l := by
    rcases foldl_max_mem ((dictKeys l).map (countOcc l)) 0 with h0 | hm
    · exfalso
      have ha : a ∈ l := by simp [hl]
      have h1 : 1 ≤ countOcc l a := countOcc_pos l a ha
      have h2 : countOcc l a ≤ maxFreqOf l := countOcc_le_maxFreq l a ha
      have : maxFreqOf l = 0 := h0
      omega
    · obtain ⟨k, hk, hke⟩ := List.mem_map.mp hm
      exact ⟨k, hk, hke⟩
  obtain ⟨k, hk, hke⟩ := hmax_mem
  have hsome : ((dictKeys l).find? (fun k => countOcc l k = maxFreqOf l)).isSome :=
    find?_isSome_of _ _ k hk (by simp [hke])
  obtain ⟨r, hr⟩ := Option.isSome_iff_exists.mp hsome
  refine ⟨r, hr, ?_, ?_, ?_⟩
  · exact gmfv_mem l r hr
  · intro x hx
    obtain ⟨hpr, _⟩ := find?_decomp _ _ _ hr
    have : countOcc l r = maxFreqOf l := by simpa using hpr
    rw [this]
    exact countOcc_le_maxFreq l x hx
  · intro x hx hcx
    obtain ⟨hpr, l1, l2, hdec, hall⟩ := find?_decomp _ _ _ hr
    have hrmax : countOcc l r = maxFreqOf l := by simpa using hpr
    have hxk : x ∈ dictKeys l := (mem_dictKeys l x).mpr hx
    rw [hdec] at hxk
    rcases List.mem_append.mp hxk with hx1 | hx2
    · exfalso
      have := hall x hx1
      rw [hcx, hrmax] at this
      simp at this
    · rcases List.mem_cons.mp hx2 with hxr | hx2
      · subst hxr; exact le_refl _
      · have hpw := dictKeys_pairwise l
        rw [hdec] at hpw
        have h2 := (List.pairwise_append.mp hpw).2.1
        have := (List.pairwise_cons.mp h2).1 x hx2
        omega

/-- Claim C6: a caller-supplied override encoding is used unconditionally
when present; otherwise, whenever at least one non-"ascii" classifier
guess exists, the resolved encoding is the most frequent guess after
discarding "ascii" guesses, ties broken by first-encountered order; when
no guess results at all the resolved encoding defaults to "ascii"; and
guesses ["ascii","ascii","cp1251"] resolve to "cp1251". -/
theorem C6_thm :
    (∀ (e : Str) (gs : List Str), e ≠ [] → resolveEncoding e gs = e) ∧
    resolveEncoding [] [] = "ascii".data ∧
    (∀ gs : List Str, (∃ g ∈ gs, g ≠ "ascii".data) →
      ∃ r, resolveEncoding [] gs = r ∧
        MostFreqFirst (gs.filter (fun g => g ≠ "ascii".data)) r) ∧
    resolveEncoding [] ["ascii".data, "ascii".data, "cp1251".data] = "cp1251".data := by
  refine ⟨?_, rfl, ?_, by decide⟩
  · intro e gs he
    simp [resolveEncoding, he]
  · intro gs ⟨g, hg, hgne⟩
    have hmem : g ∈ gs.filter (fun g => g ≠ "ascii".data) :=
      List.mem_filter.mpr ⟨hg, by simpa using hgne⟩
    have hne : gs.filter (fun g => g ≠ "ascii".data) ≠ [] :=
      List.ne_nil_of_mem hmem
    obtain ⟨r, hr, hmff⟩ := gmfv_spec _ hne
    refine ⟨r, ?_, hmff⟩
    unfold resolveEncoding
    rw [if_neg (by simp)]
    unfold guess_encoding
    rw [hr]

/-- Witness for C6 at the override "koi8" and at the guess list
["ascii","cp1251"]. -/
theorem C6_wit :
    resolveEncoding "koi8".data ["ascii".data] = "koi8".data ∧
    ∃ r, resolveEncoding [] ["ascii".data, "cp1251".data] = r ∧
      MostFreqFirst (["ascii".data, "cp1251".data].filter
        (fun g => g ≠ "ascii".data)) r :=
  ⟨C6_thm.1 "koi8".data ["ascii".data] (by decide),
    C6_thm.2.2.1 ["ascii".data, "cp1251".data] ⟨"cp1251".data, by decide, by decide⟩⟩

/-- Claim C1, amended.  After the consensus pass every record's year is
the most frequent value of the post-repair year column with the absent
value counting as a vote (no discarding of empty values, contrary to the
original claim), ties broken by first occurrence; the artist likewise
over the artist column. -/
theorem C1_thm : ∀ (recs : List (Str × TagOut)), recs ≠ [] →
    ∃ y a, MostFreqFirst (recs.map (fun p => p.2.year)) y ∧
      MostFreqFirst (recs.map (fun p => p.2.artist)) a ∧
      ∀ p ∈ consensus recs, p.2.year = y ∧ p.2.artist = a := by
  intro recs hne
  have hyne : recs.map (fun p => p.2.year) ≠ [] := by
    simpa using hne
  have hane : recs.map (fun p => p.2.artist) ≠ [] := by
    simpa using hne
  obtain ⟨y, hy, hymff⟩ := gmfv_spec _ hyne
  obtain ⟨a, ha, hamff⟩ := gmfv_spec _ hane
  refine ⟨y, a, hymff, hamff, ?_⟩
  intro p hp
  have hart : (setYears y recs).map (fun p => p.2.artist) =
      recs.map (fun p => p.2.artist) := by
    simp [setYears, List.map_map]
  simp only [consensus, hy, Option.getD_some] at hp
  rw [artistPass, hart, ha] at hp
  simp only [setArtists, setYears, List.map_map, List.mem_map] at hp
  obtain ⟨q, hq, rfl⟩ := hp
  exact ⟨rfl, rfl⟩

/-- Witness for C1's amended theorem at a one-record collection. -/
theorem C1_wit :
    ∃ y a,
      MostFreqFirst ([(("f".data : Str),
        (⟨"A".data, "B".data, some "1999".data, .i 1, "T".data⟩ : TagOut))].map
          (fun p => p.2.year)) y ∧
      MostFreqFirst ([(("f".data : Str),
        (⟨"A".data, "B".data, some "1999".data, .i 1, "T".data⟩ : TagOut))].map
          (fun p => p.2.artist)) a ∧
      ∀ p ∈ consensus [(("f".data : Str),
        (⟨"A".data, "B".data, some "1999".data, .i 1, "T".data⟩ : TagOut))],
        p.2.year = y ∧ p.2.artist = a :=
  C1_thm _ (by simp)

/-- Counterexample to claim C1 as stated: in the collection
`tagsYears0` two records end per-file repair with an absent year and one
with year "1999"; the most frequent non-empty year is "1999", yet the
consensus pass sets every year to the absent value (the absent value
outvotes "1999"). -/
theorem C1_cex :
    (repair_tags "/w".data args0 tagsYears0).map
      (fun pr => pr.1.map (fun p => p.2.year)) = some [none, none, none] ∧
    (repair_files args0
        (fsLookup (get_tags_from_filesystem "/w".data
          (pySorted (tagsYears0.map (fun p => p.1))))) tagsYears0).map
      (fun pr => pr.1.map (fun p => p.2.year)) =
      some [none, none, some "1999".data] := by
  constructor
  · decide
  · decide

/-! ### Inversion of the per-record repair (claims C7, C8) -/

theorem stageFinal_year (sep ar al ti yr : Str) (n : NumVal) :
    (stageFinal sep ar al ti yr n).year = yearNormalize (pyStrip yr) := rfl

theorem stageFinal_number (sep ar al ti yr : Str) (n : NumVal) :
    (stageFinal sep ar al ti yr n).number = n := rfl

theorem repairOne_eq_some (a : Args) (f e : TagIn) (r : TagOut) (ds : List Str)
    (h : repairOne a f e = some (r, ds)) :
    ∃ al0 ti1 anr,
      stageAlbumCD (merge a f e).album = some al0 ∧
      titleStep a.SEPARATOR (merge a f e).title
        (stageNumber (merge a f e).number f.number).1 = some ti1 ∧
      discStep a.SEPARATOR (stageNoise al0 (merge a f e).artist).1
        (stageNumber (merge a f e).number f.number).1 = some anr ∧
      r = stageFinal a.SEPARATOR (stageNoise al0 (merge a f e).artist).2 anr.1 ti1
        (merge a f e).year anr.2 ∧
      ds = (stageNumber (merge a f e).number f.number).2 := by
  simp only [repairOne] at h
  cases hsa : stageAlbumCD (merge a f e).album with
  | none => rw [hsa] at h; simp at h
  | some al0 =>
    rw [hsa] at h
    simp only at h
    cases hts : titleStep a.SEPARATOR (merge a f e).title
        (stageNumber (merge a f e).number f.number).1 with
    | none => rw [hts] at h; simp at h
    | some ti1 =>
      rw [hts] at h
      simp only at h
      cases hds : discStep a.SEPARATOR (stageNoise al0 (merge a f e).artist).1
          (stageNumber (merge a f e).number f.number).1 with
      | none => rw [hds] at h; simp at h
      | some anr =>
        rw [hds] at h
        simp only [Option.some.injEq, Prod.mk.injEq] at h
        exact ⟨al0, ti1, anr, rfl, rfl, hds, h.1.symm, h.2.symm⟩

theorem yearNormalize_norm (y : Str) : NormalizedYear (yearNormalize y) := by
  unfold yearNormalize NormalizedYear
  split
  · rename_i h
    exact Or.inr ⟨y.take 4, rfl, h.1, h.2⟩
  · exact Or.inl rfl

theorem repairOne_year (a : Args) (f e : TagIn) (r : TagOut) (ds : List Str)
    (h : repairOne a f e = some (r, ds)) : NormalizedYear r.year := by
  obtain ⟨al0, ti1, anr, _, _, _, hr, _⟩ := repairOne_eq_some a f e r ds h
  rw [hr, stageFinal_year]
  exact yearNormalize_norm _

theorem repair_files_year (a : Args) (fs : Str → TagIn) :
    ∀ (tags : List (Str × TagIn)) (rs : List (Str × TagOut)) (ds : List Str),
      repair_files a fs tags = some (rs, ds) →
      ∀ p ∈ rs, NormalizedYear p.2.year := by
  intro tags
  induction tags with
  | nil =>
    intro rs ds h p hp
    simp only [repair_files, Option.some.injEq, Prod.mk.injEq] at h
    rw [← h.1] at hp
    simp at hp
  | cons hd rest ih =>
    intro rs ds h p hp
    unfold repair_files at h
    cases h1 : repairOne a (fs hd.1) hd.2 with
    | none => rw [h1] at h; simp at h
    | some rd =>
      rw [h1] at h
      simp only at h
      cases h2 : repair_files a fs rest with
      | none => rw [h2] at h; simp at h
      | some rsds =>
        rw [h2] at h
        simp only [Option.some.injEq, Prod.mk.injEq] at h
        rw [← h.1] at hp
        rcases List.mem_cons.mp hp with hph | hpt
        · subst hph
          exact repairOne_year a (fs hd.1) hd.2 rd.1 rd.2 (by simpa using h1)
        · exact ih rsds.1 rsds.2 (by simpa using h2) p hpt

theorem artistPass_year (l : List (Str × TagOut)) (p : Str × TagOut)
    (hp : p ∈ artistPass l) : ∃ q, q ∈ l ∧ p.2.year = q.2.year := by
  unfold artistPass at hp
  cases hg : get_most_frequent_value (l.map (fun q => q.2.artist)) with
  | none =>
    rw [hg] at hp
    exact ⟨p, hp, rfl⟩
  | some v =>
    rw [hg] at hp
    simp only [setArtists] at hp
    obtain ⟨q, hq, rfl⟩ := List.mem_map.mp hp
    exact ⟨q, hq, rfl⟩

theorem consensus_year (recs : List (Str × TagOut))
    (h : ∀ p ∈ recs, NormalizedYear p.2.year) :
    ∀ p ∈ consensus recs, NormalizedYear p.2.year := by
  intro p hp
  have hy : NormalizedYear
      ((get_most_frequent_value (recs.map (fun p => p.2.year))).getD none) := by
    cases hg : get_most_frequent_value (recs.map (fun p => p.2.year)) with
    | none => exact Or.inl rfl
    | some v =>
      have hv := gmfv_mem _ _ hg
      obtain ⟨q, hq, hqv⟩ := List.mem_map.mp hv
      rw [Option.getD_some, ← hqv]
      exact h q hq
  simp only [consensus] at hp
  obtain ⟨q, hq, hyq⟩ := artistPass_year _ p hp
  simp only [setYears, List.mem_map] at hq
  obtain ⟨q', hq', rfl⟩ := hq
  rw [hyq]
  exact hy

/-- Claim C8: a pre-normalization year starting with 4 digits is truncated
to those 4 digits, any other value becomes absent; and after the whole of
`repair_tags` (per-file repair followed by consensus) every record's year
is either a 4-digit string or absent, never a longer raw string. -/
theorem C8_thm :
    (∀ (d4 rest : Str), d4.length = 4 → d4.all reDigit = true →
      yearNormalize (d4 ++ rest) = some d4) ∧
    (∀ y : Str, ¬ ((y.take 4).length = 4 ∧ (y.take 4).all reDigit = true) →
      yearNormalize y = none) ∧
    ∀ (a : Args) (fs : Str → TagIn) (tags : List (Str × TagIn))
      (res : List (Str × TagOut)) (ds : List Str),
      repair_tags_core a fs tags = some (res, ds) →
      ∀ p ∈ res, NormalizedYear p.2.year := by
  refine ⟨?_, ?_, ?_⟩
  · intro d4 rest h4 hdig
    have htake : (d4 ++ rest).take 4 = d4 := by
      rw [← h4]
      exact List.take_left d4 rest
    unfold yearNormalize
    rw [htake, if_pos ⟨h4, hdig⟩]
  · intro y hy
    unfold yearNormalize
    rw [if_neg hy]
  · intro a fs tags res ds h
    unfold repair_tags_core at h
    cases h1 : repair_files a fs tags with
    | none => rw [h1] at h; simp at h
    | some rsds =>
      rw [h1] at h
      simp at h
      rw [← h.1]
      exact consensus_year rsds.1
        (repair_files_year a fs tags rsds.1 rsds.2 (by simpa using h1))

/-- Witness for C8: the year "1999x" truncates to "1999", the year "199"
becomes absent, and the concrete one-record reconciliation run keeps the
normalized-year invariant. -/
theorem C8_wit :
    yearNormalize ("1999".data ++ "x".data) = some "1999".data ∧
    yearNormalize "199".data = none ∧
    ∀ p ∈ [(("f".data : Str),
      (⟨"Ar".data, "Al".data, none, .i 1, "T".data⟩ : TagOut))],
      NormalizedYear p.2.year :=
  ⟨C8_thm.1 "1999".data "x".data (by decide) (by decide),
    C8_thm.2.1 "199".data (by decide),
    C8_thm.2.2 args0 (fun _ => ⟨[], [], [], .i 0, []⟩)
      [("f".data, ⟨"Ar".data, "Al".data, [], .s "1".data, "T".data⟩)]
      [("f".data, ⟨"Ar".data, "Al".data, none, .i 1, "T".data⟩)] [] (by decide)⟩

/-! ### Number-coercion failure (claim C7) -/

theorem discStep_number (sep al : Str) (n : NumVal) (pr : Str × NumVal)
    (h : discStep sep al n = some pr) :
    pr.2 = n ∨ ∃ m k, n = NumVal.i m ∧ (k = (100 : Int) ∨ k = 200 ∨ k = 300) ∧
      pr.2 = NumVal.i (m + k) := by
  simp only [discStep] at h
  by_cases h1 : containsSub "CD 1".data (pyReplace al sep " ".data) = true
  · rw [if_pos h1] at h
    cases n with
    | s v => simp [numAdd] at h
    | i m =>
      simp only [numAdd, Option.map_some'] at h
      by_cases h2 : containsSub "CD 2".data
          (pyReplace (pyReplace al sep " ".data) " - CD 1".data []) = true
      · rw [if_pos h2] at h
        simp only [numAdd, Option.map_some', Option.some.injEq] at h
        refine Or.inr ⟨m, 300, rfl, by simp, ?_⟩
        rw [← h]
        show NumVal.i (m + 100 + 200) = NumVal.i (m + 300)
        have h300 : m + 100 + 200 = m + 300 := by omega
        rw [h300]
      · rw [if_neg h2] at h
        simp only [Option.some.injEq] at h
        exact Or.inr ⟨m, 100, rfl, by simp, by rw [← h]⟩
  · rw [if_neg h1] at h
    simp only at h
    by_cases h2 : containsSub "CD 2".data (pyReplace al sep " ".data) = true
    · rw [if_pos h2] at h
      cases n with
      | s v => simp [numAdd] at h
      | i m =>
        simp only [numAdd, Option.map_some', Option.some.injEq] at h
        exact Or.inr ⟨m, 200, rfl, by simp, by rw [← h]⟩
    · rw [if_neg h2] at h
      simp only [Option.some.injEq] at h
      exact Or.inl (by rw [← h])

theorem repairOne_coerce (a : Args) (f e : TagIn) (r : TagOut) (ds : List Str)
    (hfail : pyIntNum (merge a f e).number = none)
    (h : repairOne a f e = some (r, ds)) :
    ds = [numDiag (merge a f e).number] ∧
    (r.number = f.number ∨ ∃ m k, f.number = NumVal.i m ∧
      (k = (100 : Int) ∨ k = 200 ∨ k = 300) ∧ r.number = NumVal.i (m + k)) := by
  obtain ⟨al0, ti1, anr, hsa, hts, hds, hr, hdseq⟩ := repairOne_eq_some a f e r ds h
  have hsn : stageNumber (merge a f e).number f.number =
      (f.number, [numDiag (merge a f e).number]) := by
    unfold stageNumber
    rw [hfail]
  constructor
  · rw [hdseq, hsn]
  · have hnum : r.number = anr.2 := by rw [hr, stageFinal_number]
    rw [hsn] at hds
    rcases discStep_number _ _ _ _ hds with h0 | ⟨m, k, hm, hk, h2⟩
    · exact Or.inl (by rw [hnum, h0])
    · exact Or.inr ⟨m, k, hm, hk, by rw [hnum, h2]⟩

theorem repair_files_complete (a : Args) (fs : Str → TagIn) :
    ∀ (tags : List (Str × TagIn)),
      (∀ p ∈ tags, (repairOne a (fs p.1) p.2).isSome) →
      ∃ rs ds, repair_files a fs tags = some (rs, ds) ∧ rs.length = tags.length ∧
        ∀ p ∈ tags, ∃ r d, repairOne a (fs p.1) p.2 = some (r, d) ∧
          (p.1, r) ∈ rs ∧ ∀ x ∈ d, x ∈ ds := by
  intro tags
  induction tags with
  | nil => intro _; exact ⟨[], [], rfl, rfl, by simp⟩
  | cons hd rest ih =>
    intro hall
    obtain ⟨fn, e⟩ := hd
    have hhd := hall (fn, e) (by simp)
    obtain ⟨rd, hrd⟩ := Option.isSome_iff_exists.mp hhd
    obtain ⟨r0, d0⟩ := rd
    obtain ⟨rs, ds, hre, hlen, hmem⟩ := ih (fun p hp => hall p (List.mem_cons_of_mem _ hp))
    refine ⟨(fn, r0) :: rs, d0 ++ ds, ?_, by simp [hlen], ?_⟩
    · unfold repair_files
      rw [hrd]
      simp only
      rw [hre]
    · intro p hp
      rcases List.mem_cons.mp hp with hph | hpt
      · subst hph
        exact ⟨r0, d0, hrd, by simp, fun x hx => by simp [hx]⟩
      · obtain ⟨r, d, h1, h2, h3⟩ := hmem p hpt
        exact ⟨r, d, h1, List.mem_cons_of_mem _ h2,
          fun x hx => List.mem_append_right _ (h3 x hx)⟩

/-- Claim C7, amended.  A record whose merged track number fails integer
coercion gets the diagnostic and falls back to the filesystem record's
number — the filename-captured string when the filename carried one,
otherwise the sequence index — possibly shifted by the disc-marker
offsets; and provided no record raises an uncaught exception, the whole
batch completes with every record present and the diagnostic surfaced in
the accumulated list. -/
theorem C7_thm : ∀ (a : Args) (fs : Str → TagIn) (tags : List (Str × TagIn))
    (fn : Str) (e : TagIn),
    (fn, e) ∈ tags →
    pyIntNum (merge a (fs fn) e).number = none →
    (∀ p ∈ tags, (repairOne a (fs p.1) p.2).isSome) →
    ∃ rs ds, repair_files a fs tags = some (rs, ds) ∧ rs.length = tags.length ∧
      numDiag (merge a (fs fn) e).number ∈ ds ∧
      ∃ r : TagOut, (fn, r) ∈ rs ∧
        (r.number = (fs fn).number ∨ ∃ m k, (fs fn).number = NumVal.i m ∧
          (k = (100 : Int) ∨ k = 200 ∨ k = 300) ∧ r.number = NumVal.i (m + k)) := by
  intro a fs tags fn e hmem hfail hall
  obtain ⟨rs, ds, hre, hlen, hprop⟩ := repair_files_complete a fs tags hall
  obtain ⟨r, d, h1, h2, h3⟩ := hprop (fn, e) hmem
  obtain ⟨hd, hn⟩ := repairOne_coerce a (fs fn) e r d hfail h1
  refine ⟨rs, ds, hre, hlen, ?_, r, h2, hn⟩
  exact h3 _ (by simp [hd])

/-- Witness for C7: one record with embedded number "abc" and filesystem
number 7; the batch completes, the diagnostic is emitted, and the record
falls back to the filesystem number. -/
theorem C7_wit :
    ∃ rs ds,
      repair_files args0
        (fun _ => (⟨[], [], [], .i 7, []⟩ : TagIn))
        [("f".data, ⟨"Ar".data, "Al".data, "1999".data, .s "abc".data, "T".data⟩)] =
        some (rs, ds) ∧
      rs.length = [("f".data,
        (⟨"Ar".data, "Al".data, "1999".data, .s "abc".data, "T".data⟩ : TagIn))].length ∧
      numDiag (merge args0 ((fun _ => (⟨[], [], [], .i 7, []⟩ : TagIn)) "f".data)
        ⟨"Ar".data, "Al".data, "1999".data, .s "abc".data, "T".data⟩).number ∈ ds ∧
      ∃ r : TagOut, ("f".data, r) ∈ rs ∧
        (r.number = ((fun _ => (⟨[], [], [], .i 7, []⟩ : TagIn)) "f".data).number ∨
          ∃ m k, ((fun _ => (⟨[], [], [], .i 7, []⟩ : TagIn)) "f".data).number =
              NumVal.i m ∧
            (k = (100 : Int) ∨ k = 200 ∨ k = 300) ∧ r.number = NumVal.i (m + k)) :=
  C7_thm args0 (fun _ => ⟨[], [], [], .i 7, []⟩)
    [("f".data, ⟨"Ar".data, "Al".data, "1999".data, .s "abc".data, "T".data⟩)]
    "f".data ⟨"Ar".data, "Al".data, "1999".data, .s "abc".data, "T".data⟩
    (by simp) (by decide) (by decide)

/-- Counterexample to claim C7 as stated: for the file "d/07 - x.mp3"
(sequence index 1) with embedded number "abc", the fallback number is the
filename-captured string "07", not the sequence index 1. -/
theorem C7_cex :
    (repair_tags "/w".data args0 tagsNum0).map
      (fun pr => pr.1.map (fun p => p.2.number)) = some [NumVal.s "07".data] ∧
    (repair_tags "/w".data args0 tagsNum0).map (fun pr => pr.2) =
      some ["Track number is not a number: abc".data] ∧
    NumVal.s "07".data ≠ NumVal.i 1 := by
  exact ⟨by decide, by decide, by decide⟩

/-! ### Pattern-matcher totality (claim C3) -/

theorem matchRE_grp_plusC_ne (n : String) (p : Char → Bool) (c : Char) (s : Str)
    (h : p c = true) : matchRE (.grp n (.plusC p)) (c :: s) ≠ [] := by
  simp only [matchRE]
  intro hcon
  have hc2 := congrArg List.length hcon
  simp only [List.length_map, List.length_range, List.length_nil] at hc2
  rw [List.takeWhile_cons, if_pos h] at hc2
  simp at hc2

theorem parse_cons_isSome_tail (q : RE) (ps : List RE) (s : Str)
    (h : (parse ps s).isSome) : (parse (q :: ps) s).isSome := by
  unfold parse
  cases hm : matchRE q s with
  | nil => exact h
  | cons pr rest => simp

theorem parse_single_isSome (q : RE) (s : Str) (h : matchRE q s ≠ []) :
    (parse [q] s).isSome := by
  unfold parse
  cases hm : matchRE q s with
  | nil => exact absurd hm h
  | cons pr rest => simp

/-- Claim C3, amended.  For every text whose first character is not a
newline, `parse` with `DIR_PATTERNS` or `FILE_PATTERNS` returns a match:
the final template is a catch-all for all such texts.  It is not an
unconditional catch-all, because `.` does not match a newline (Python
`re` without `DOTALL`), so parse is not total on all non-empty texts —
see the counterexample. -/
theorem C3_thm : ∀ (c : Char) (s : Str), c ≠ '\n' →
    (parse DIR_PATTERNS (c :: s)).isSome ∧ (parse FILE_PATTERNS (c :: s)).isSome := by
  intro c s hc
  have hdot : reDot c = true := by
    simp [reDot, hc]
  constructor
  · unfold DIR_PATTERNS
    iterate 9 apply parse_cons_isSome_tail
    exact parse_single_isSome _ _ (matchRE_grp_plusC_ne "album" reDot c s hdot)
  · unfold FILE_PATTERNS
    iterate 5 apply parse_cons_isSome_tail
    exact parse_single_isSome _ _ (matchRE_grp_plusC_ne "title" reDot c s hdot)

/-- Witness for C3 at the one-character text "a". -/
theorem C3_wit :
    (parse DIR_PATTERNS ['a']).isSome ∧ (parse FILE_PATTERNS ['a']).isSome :=
  C3_thm 'a' [] (by decide)

/-- Counterexample to claim C3 as stated: the text consisting of a single
newline is non-empty, yet every template of both lists fails on it (the
catch-all `.+` does not match a leading newline) and `parse` returns the
no-match result. -/
theorem C3_cex :
    parse DIR_PATTERNS ['\n'] = none ∧ parse FILE_PATTERNS ['\n'] = none ∧
    (['\n'] : Str) ≠ [] := by
  exact ⟨by decide, by decide, by decide⟩

/-! ### Disc markers (claim C4) -/

/-- Claim C4, amended.  With an integer track number: if the merged album
(after separator replacement) contains "CD 2" and not "CD 1", 200 is
added to the number and every occurrence of the dash form " - CD 2" is
removed; if it contains "CD 1" (and afterwards no "CD 2" remains), 100
is added and " - CD 1" removed; a marker without the preceding " - " is
counted but not stripped.  Album "Greatest Hits - CD 2" with number 5
yields album "Greatest Hits" and number 205. -/
theorem C4_thm :
    (∀ (sep al : Str) (n : Int),
      containsSub "CD 2".data (pyReplace al sep " ".data) = true →
      containsSub "CD 1".data (pyReplace al sep " ".data) = false →
      discStep sep al (.i n) =
        some (pyReplace (pyReplace al sep " ".data) " - CD 2".data [],
          .i (n + 200))) ∧
    (∀ (sep al : Str) (n : Int),
      containsSub "CD 1".data (pyReplace al sep " ".data) = true →
      containsSub "CD 2".data
        (pyReplace (pyReplace al sep " ".data) " - CD 1".data []) = false →
      discStep sep al (.i n) =
        some (pyReplace (pyReplace al sep " ".data) " - CD 1".data [],
          .i (n + 100))) ∧
    discStep " ".data "Greatest Hits - CD 2".data (.i 5) =
      some ("Greatest Hits".data, .i 205) := by
  refine ⟨?_, ?_, by decide⟩
  · intro sep al n h2 h1
    simp only [discStep]
    rw [if_neg (by simp [h1])]
    show (if containsSub "CD 2".data (pyReplace al sep " ".data) = true
      then _ else _ : Option (Str × NumVal)) = _
    rw [if_pos h2]
    simp [numAdd]
  · intro sep al n h1 h2
    simp only [discStep]
    rw [if_pos h1]
    simp only [numAdd, Option.map_some']
    show (if containsSub "CD 2".data
        (pyReplace (pyReplace al sep " ".data) " - CD 1".data []) = true
      then _ else _ : Option (Str × NumVal)) = _
    rw [if_neg (by simp [h2])]

/-- Witness for C4's amended theorem at concrete albums. -/
theorem C4_wit :
    discStep " ".data "X - CD 2".data (.i 1) =
      some (pyReplace (pyReplace "X - CD 2".data " ".data " ".data)
        " - CD 2".data [], .i (1 + 200)) ∧
    discStep " ".data "Y - CD 1".data (.i 2) =
      some (pyReplace (pyReplace "Y - CD 1".data " ".data " ".data)
        " - CD 1".data [], .i (2 + 100)) :=
  ⟨C4_thm.1 " ".data "X - CD 2".data 1 (by decide) (by decide),
    C4_thm.2.1 " ".data "Y - CD 1".data 2 (by decide) (by decide)⟩

/-- Counterexample to claim C4 as stated: album "Greatest Hits CD 2"
contains the disc-2 marker, so 200 is added, but the marker is not
stripped (only the dash form " - CD 2" is removed) — the resulting album
still contains "CD 2". -/
theorem C4_cex :
    discStep " ".data "Greatest Hits CD 2".data (.i 5) =
      some ("Greatest Hits CD 2".data, .i 205) ∧
    containsSub "CD 2".data "Greatest Hits CD 2".data = true := by
  exact ⟨by decide, by decide⟩

/-! ### Title prefix stripping (claims C5, C10) -/

theorem isPrefixOf_append_self : ∀ (l t : Str), l.isPrefixOf (l ++ t) = true := by
  intro l t
  induction l with
  | nil => simp [List.isPrefixOf]
  | cons c l' ih => simpa [List.isPrefixOf] using ih

/-- Claim C5, amended.  If the title, after separator and underscore
replacement, is the stringified coerced number (without leading zeros)
followed by a separator character `c ∈ {'-', '.', ' '}` and a rest, the
number prefix is removed and leading whitespace trimmed (so a dash or dot
separator survives at the front); a title that does not start with the
stringified number — such as the zero-padded "03 - Song" with number 3 —
is left unchanged; "3 Song" with number 3 yields "Song". -/
theorem C5_thm :
    (∀ (sep title : Str) (n : Int) (c : Char) (rest : Str),
      pyReplace (pyReplace title sep " ".data) "_".data " ".data =
        intToStr n ++ c :: rest →
      (c = '-' ∨ c = '.' ∨ c = ' ') →
      titleStep sep title (.i n) = some (lstrip (c :: rest))) ∧
    titleStep " ".data "3 Song".data (.i 3) = some "Song".data ∧
    titleStep " ".data "03 - Song".data (.i 3) = some "03 - Song".data := by
  refine ⟨?_, by decide, by decide⟩
  intro sep title n c rest ht hc
  unfold titleStep
  rw [ht]
  have hns : numStr (NumVal.i n) = intToStr n := rfl
  rw [hns]
  rw [if_pos (isPrefixOf_append_self (intToStr n) (c :: rest))]
  rw [List.drop_left]
  show (if (c = '-' || c = '.' || c = ' ' || c = '_') = true
    then some (lstrip (c :: rest)) else some (intToStr n ++ c :: rest)) = _
  have hcc : (c = '-' || c = '.' || c = ' ' || c = '_') = true := by
    rcases hc with h | h | h <;> simp [h]
  rw [if_pos hcc]

/-- Witness for C5's amended theorem at title "5-X" and number 5. -/
theorem C5_wit :
    titleStep " ".data "5-X".data (.i 5) = some (lstrip ('-' :: "X".data)) :=
  C5_thm.1 " ".data "5-X".data 5 '-' "X".data (by decide) (Or.inl rfl)

/-- Counterexample to claim C5 as stated: title "03 - Song" with track
number 3 is not prefix-stripped (the compared prefix is str(3) = "3"),
so the repaired title is "03 - Song", not "Song". -/
theorem C5_cex :
    titleStep " ".data "03 - Song".data (.i 3) = some "03 - Song".data ∧
    "03 - Song".data ≠ "Song".data := by
  exact ⟨by decide, by decide⟩

/-- Claim C10: the code indexes `title[len(str(number))]` whenever the
title starts with the stringified number; when the title is exactly the
stringified number the lookup is out of range and Python raises
`IndexError`, aborting repair — the title-prefix step is not total.  At
title "3" with number 3 the embedded step returns the exception result. -/
theorem C10_thm :
    titleStep " ".data "3".data (.i 3) = none ∧
    (numStr (NumVal.i 3)).isPrefixOf "3".data = true ∧
    "3".data.length = (numStr (NumVal.i 3)).length := by
  exact ⟨by decide, by decide, by decide⟩

/-! ### Artist fallback path algebra (claim C9) -/

theorem isPrefixOf_true {l m : Str} : l.isPrefixOf m = true ↔ l <+: m := by
  induction l generalizing m with
  | nil =>
    constructor
    · intro _
      exact ⟨m, rfl⟩
    · intro _
      simp [List.isPrefixOf]
  | cons c l' ih =>
    cases m with
    | nil =>
      simp only [List.isPrefixOf]
      constructor
      · intro h
        exact absurd h (by simp)
      · intro ⟨t, ht⟩
        exact absurd ht (by simp)
    | cons b m' =>
      simp only [List.isPrefixOf, Bool.and_eq_true, beq_iff_eq, ih]
      constructor
      · intro ⟨hcb, t, ht⟩
        exact ⟨t, by simp [hcb, ht]⟩
      · intro ⟨t, ht⟩
        have h1 : c = b := by simpa using congrArg (fun l => l.head?) ht
        have h2 : l' ++ t = m' := by simpa using congrArg List.tail ht
        exact ⟨h1, t, h2⟩

theorem splitOnSlash_ne_nil : ∀ (s : Str), splitOnSlash s ≠ [] := by
  intro s
  cases s with
  | nil => simp [splitOnSlash]
  | cons c rest =>
    simp only [splitOnSlash]
    cases splitOnSlash rest with
    | nil => simp
    | cons h t =>
      by_cases hc : c = '/' <;> simp [hc]

theorem splitOnSlash_slash (r : Str) :
    splitOnSlash ('/' :: r) = [] :: splitOnSlash r := by
  simp only [splitOnSlash]
  cases hr : splitOnSlash r with
  | nil => exact absurd hr (splitOnSlash_ne_nil r)
  | cons h t => simp

theorem splitOnSlash_seg : ∀ (seg : Str), seg.all (· ≠ '/') = true →
    ∀ (r : Str) (h : Str) (t : List Str), splitOnSlash r = h :: t →
      splitOnSlash (seg ++ r) = (seg ++ h) :: t := by
  intro seg
  induction seg with
  | nil =>
    intro _ r h t hr
    simpa using hr
  | cons c seg' ih =>
    intro hall r h t hr
    have hc : (c ≠ '/') = true := by
      have := List.all_eq_true.mp hall c (by simp)
      simpa using this
    have hc' : ¬ c = '/' := by simpa using hc
    have hall' : seg'.all (· ≠ '/') = true := by
      refine List.all_eq_true.mpr ?_
      intro x hx
      exact List.all_eq_true.mp hall x (by simp [hx])
    have hrec := ih hall' r h t hr
    show splitOnSlash (c :: (seg' ++ r)) = ((c :: seg') ++ h) :: t
    simp only [splitOnSlash, hrec]
    simp [hc']

theorem splitOnSlash_append_slash : ∀ (X : Str),
    splitOnSlash (X ++ ['/']) = splitOnSlash X ++ [[]] := by
  intro X
  induction X with
  | nil => rfl
  | cons c X' ih =>
    show splitOnSlash (c :: (X' ++ ['/'])) = splitOnSlash (c :: X') ++ [[]]
    simp only [splitOnSlash, ih]
    cases hX : splitOnSlash X' with
    | nil => exact absurd hX (splitOnSlash_ne_nil X')
    | cons h t =>
      by_cases hc : c = '/' <;> simp [hc]

theorem joinWith_cons_ne (sep : Str) (s : Str) (r : List Str) (h : r ≠ []) :
    joinWith sep (s :: r) = s ++ sep ++ joinWith sep r := by
  cases r with
  | nil => exact absurd rfl h
  | cons y xs => rfl

theorem absOf_cons (s : Str) (rest : List Str) (h : rest ≠ []) :
    absOf (s :: rest) = ('/' :: s) ++ absOf rest := by
  unfold absOf
  rw [joinWith_cons_ne _ _ _ h]
  simp

theorem splitOnSlash_absOf : ∀ (segs : List Str), segs ≠ [] →
    (∀ g ∈ segs, g.all (· ≠ '/') = true) →
    splitOnSlash (absOf segs) = [] :: segs := by
  intro segs
  induction segs with
  | nil => intro h; exact absurd rfl h
  | cons s rest ih =>
    intro _ hall
    by_cases hr : rest = []
    · subst hr
      show splitOnSlash ('/' :: (joinWith "/".data [s])) = [] :: [s]
      rw [splitOnSlash_slash]
      have h1 : splitOnSlash (s ++ []) = (s ++ []) :: [] :=
        splitOnSlash_seg s (hall s (by simp)) [] [] [] rfl
      simp only [List.append_nil] at h1
      show [] :: splitOnSlash s = [] :: [s]
      rw [h1]
    · rw [absOf_cons s rest hr]
      have hrec := ih hr (fun g hg => hall g (by simp [hg]))
      show splitOnSlash ('/' :: (s ++ absOf rest)) = [] :: s :: rest
      rw [splitOnSlash_slash]
      rw [splitOnSlash_seg s (hall s (by simp)) (absOf rest) [] rest hrec]
      simp

theorem normComps_skip_nil (sl : Nat) (acc : List Str) (r : List Str) :
    normComps sl acc ([] :: r) = normComps sl acc r := by
  simp [normComps]

theorem normComps_wf_append (sl : Nat) :
    ∀ (segs : List Str), (∀ g ∈ segs, g ≠ [] ∧ g ≠ ".".data ∧ g ≠ "..".data) →
      ∀ (acc r : List Str), normComps sl acc (segs ++ r) =
        normComps sl (acc ++ segs) r := by
  intro segs
  induction segs with
  | nil => intro _ acc r; simp
  | cons g segs' ih =>
    intro hall acc r
    obtain ⟨hg1, hg2, hg3⟩ := hall g (by simp)
    show normComps sl acc (g :: (segs' ++ r)) = _
    simp only [normComps]
    rw [if_neg (by simp [hg1, hg2]), if_pos (Or.inl hg3)]
    rw [ih (fun x hx => hall x (by simp [hx])) (acc ++ [g]) r]
    simp

theorem twoSlash_not_pre (c : Char) (y : Str) (h : ¬ c = '/') :
    ("//".data.isPrefixOf ('/' :: c :: y)) = false := by
  have hcb : ('/' == c) = false := beq_eq_false_iff_ne.mpr (fun hh => h hh.symm)
  show (('/' == '/') && (('/' == c) && List.isPrefixOf [] y)) = false
  rw [hcb]
  simp

theorem oneSlash_pre (y : Str) : ("/".data.isPrefixOf ('/' :: y)) = true := by
  simp [List.isPrefixOf]

/-- The head of `absOf segs` after the leading slash is the first
character of the first segment. -/
theorem absOf_shape (c : Char) (s' : Str) (rest : List Str) :
    ∃ y, absOf ((c :: s') :: rest) = '/' :: c :: y := by
  by_cases hr : rest = []
  · subst hr
    exact ⟨s', rfl⟩
  · rw [absOf_cons _ _ hr]
    exact ⟨s' ++ absOf rest, rfl⟩

theorem normpath_absOf : ∀ (segs : List Str), segs ≠ [] →
    (∀ g ∈ segs, WfSeg g) → normpath (absOf segs) = absOf segs := by
  intro segs hne hwf
  obtain ⟨s, rest, rfl⟩ := List.exists_cons_of_ne_nil hne
  obtain ⟨hs1, hs2, hs3, hs4⟩ := hwf s (by simp)
  obtain ⟨c, s', rfl⟩ := List.exists_cons_of_ne_nil hs1
  have hc : ¬ c = '/' := by
    have := List.all_eq_true.mp hs2 c (by simp)
    simpa using this
  obtain ⟨y, hy⟩ := absOf_shape c s' rest
  unfold normpath
  rw [if_neg (by rw [hy]; simp)]
  have hslash2 : ("//".data.isPrefixOf (absOf ((c :: s') :: rest))) = false := by
    rw [hy]; exact twoSlash_not_pre c y hc
  have hslash1 : ("/".data.isPrefixOf (absOf ((c :: s') :: rest))) = true := by
    rw [hy]; exact oneSlash_pre _
  rw [hslash2, hslash1]
  simp only [Bool.false_and]
  rw [if_neg (show ¬ false = true by simp)]
  simp only [if_true]
  rw [splitOnSlash_absOf _ (by simp) (fun g hg => (hwf g hg).2.1)]
  rw [normComps_skip_nil]
  have hw : ∀ g ∈ (c :: s') :: rest, g ≠ [] ∧ g ≠ ".".data ∧ g ≠ "..".data := by
    intro g hg
    obtain ⟨h1, _, h3, h4⟩ := hwf g hg
    exact ⟨h1, h3, h4⟩
  have := normComps_wf_append 1 ((c :: s') :: rest) hw [] []
  simp only [List.append_nil, List.nil_append] at this
  rw [this]
  show (if ('/' :: joinWith "/".data ((c :: s') :: rest)) = [] then _ else
    ('/' :: joinWith "/".data ((c :: s') :: rest))) = _
  rw [if_neg (by simp)]
  rfl

theorem normpath_absOf_slash : ∀ (segs : List Str), segs ≠ [] →
    (∀ g ∈ segs, WfSeg g) →
    normpath (absOf segs ++ ['/']) = absOf segs := by
  intro segs hne hwf
  obtain ⟨s, rest, rfl⟩ := List.exists_cons_of_ne_nil hne
  obtain ⟨hs1, hs2, hs3, hs4⟩ := hwf s (by simp)
  obtain ⟨c, s', rfl⟩ := List.exists_cons_of_ne_nil hs1
  have hc : ¬ c = '/' := by
    have := List.all_eq_true.mp hs2 c (by simp)
    simpa using this
  obtain ⟨y, hy⟩ := absOf_shape c s' rest
  unfold normpath
  rw [if_neg (by rw [hy]; simp)]
  have hslash2 : ("//".data.isPrefixOf (absOf ((c :: s') :: rest) ++ ['/'])) = false := by
    rw [hy]
    show ("//".data.isPrefixOf ('/' :: c :: (y ++ ['/']))) = false
    exact twoSlash_not_pre c (y ++ ['/']) hc
  have hslash1 : ("/".data.isPrefixOf (absOf ((c :: s') :: rest) ++ ['/'])) = true := by
    rw [hy]
    show ("/".data.isPrefixOf ('/' :: (c :: y ++ ['/']))) = true
    exact oneSlash_pre _
  rw [hslash2, hslash1]
  simp only [Bool.false_and]
  rw [if_neg (show ¬ false = true by simp)]
  simp only [if_true]
  rw [splitOnSlash_append_slash]
  rw [splitOnSlash_absOf _ (by simp) (fun g hg => (hwf g hg).2.1)]
  show (if (List.replicate 1 '/' ++ joinWith "/".data
      (normComps 1 [] (([] :: (c :: s') :: rest) ++ [[]]))) = [] then _ else _) = _
  have hw : ∀ g ∈ (c :: s') :: rest, g ≠ [] ∧ g ≠ ".".data ∧ g ≠ "..".data := by
    intro g hg
    obtain ⟨h1, _, h3, h4⟩ := hwf g hg
    exact ⟨h1, h3, h4⟩
  rw [show (([] : Str) :: (c :: s') :: rest) ++ [[]] =
    ([] : Str) :: (((c :: s') :: rest) ++ [[]]) from by simp]
  rw [normComps_skip_nil]
  rw [normComps_wf_append 1 ((c :: s') :: rest) hw [] [[]]]
  rw [show normComps 1 ([] ++ (c :: s') :: rest) [[]] =
    (c :: s') :: rest from by simp [normComps]]
  rw [if_neg (by simp)]
  rfl

theorem pyReplace_single : ∀ (w pat : Str), pat ≠ [] →
    (∀ i, i < w.length → pat.isPrefixOf ((w ++ pat).drop i) = false) →
    pyReplace (w ++ pat) pat [] = w := by
  intro w
  induction w with
  | nil =>
    intro pat hne _
    obtain ⟨c, pt, rfl⟩ := List.exists_cons_of_ne_nil hne
    show pyReplace (c :: pt) (c :: pt) [] = []
    rw [pyReplace_cons]
    have hpre : (c :: pt).isPrefixOf (c :: pt) = true := by
      have := isPrefixOf_append_self (c :: pt) []
      simpa using this
    rw [if_pos (by simp [hpre])]
    have hdrop : pt.drop ((c :: pt).length - 1) = [] := by
      simp
    rw [hdrop, pyReplace_nil]
    simp
  | cons c w' ih =>
    intro pat hne hocc
    show pyReplace (c :: (w' ++ pat)) pat [] = c :: w'
    rw [pyReplace_cons]
    have h0 : pat.isPrefixOf (c :: (w' ++ pat)) = false := by
      have := hocc 0 (by simp)
      simpa using this
    rw [if_neg (by simp [h0])]
    rw [if_neg (by simpa using hne)]
    rw [ih pat hne ?_]
    · simp
    · intro i hi
      have := hocc (i + 1) (by simp only [List.length_cons]; omega)
      simpa using this

theorem containsSub_of_drop : ∀ (A : Str) (pat : Str) (i : Nat),
    pat.isPrefixOf (A.drop i) = true → containsSub pat A = true := by
  intro A
  induction A with
  | nil =>
    intro pat i h
    simpa [containsSub] using h
  | cons c A' ih =>
    intro pat i h
    cases i with
    | zero =>
      simp only [List.drop_zero] at h
      simp [containsSub, h]
    | succ i' =>
      simp only [List.drop_succ_cons] at h
      have := ih pat i' h
      simp [containsSub, this]

theorem take_of_pre {l x : Str} (h : l <+: x) : l = x.take l.length := by
  obtain ⟨t, ht⟩ := h
  have h2 : (l ++ t).take l.length = l := List.take_left l t
  rw [ht] at h2
  exact h2.symm

theorem pre_of_pre_append {l x y : Str} (h : l <+: x ++ y)
    (hlen : l.length ≤ x.length) : l <+: x := by
  have h1 : l = (x ++ y).take l.length := take_of_pre h
  rw [List.take_append_of_le_length hlen] at h1
  refine ⟨x.drop l.length, ?_⟩
  nth_rewrite 1 [h1]
  exact List.take_append_drop _ x

theorem no_occ_window (A pat : Str) (hne : pat ≠ [])
    (hslash : pat.all (· ≠ '/') = true)
    (hcon : containsSub pat A = false) :
    ∀ i, i < (A ++ ['/']).length →
      pat.isPrefixOf (((A ++ ['/']) ++ pat).drop i) = false := by
  intro i hi
  by_contra hcontra
  have hpre : pat.isPrefixOf (((A ++ ['/']) ++ pat).drop i) = true := by
    simpa using hcontra
  have hp : pat <+: ((A ++ ['/']) ++ pat).drop i := isPrefixOf_true.mp hpre
  have hassoc : (A ++ ['/']) ++ pat = A ++ '/' :: pat := by simp
  rw [hassoc] at hp
  simp only [List.length_append, List.length_cons, List.length_nil] at hi
  have hile : i ≤ A.length := by omega
  have hdrop : (A ++ '/' :: pat).drop i = A.drop i ++ '/' :: pat :=
    List.drop_append_of_le_length hile
  rw [hdrop] at hp
  by_cases hcase : i + pat.length ≤ A.length
  · have hlen : pat.length ≤ (A.drop i).length := by
      simp only [List.length_drop]
      omega
    have hpA : pat <+: A.drop i := pre_of_pre_append hp hlen
    have := containsSub_of_drop A pat i (isPrefixOf_true.mpr hpA)
    rw [hcon] at this
    exact absurd this (by simp)
  · have hpat_eq : pat = (A.drop i ++ '/' :: pat).take pat.length := take_of_pre hp
    have hlenA : (A.drop i).length = A.length - i := by simp
    have hmem : '/' ∈ (A.drop i ++ '/' :: pat).take pat.length := by
      rw [List.take_append_eq_append_take]
      refine List.mem_append_right _ ?_
      cases hcm : pat.length - (A.drop i).length with
      | zero =>
        rw [hlenA] at hcm
        omega
      | succ m =>
        simp
    have hmp : '/' ∈ pat := by
      rw [hpat_eq]
      exact hmem
    have := List.all_eq_true.mp hslash '/' hmp
    simp at this

theorem getLast_app : ∀ (X t : Str), t ≠ [] → (X ++ t).getLast? = t.getLast? := by
  intro X
  induction X with
  | nil => intro t _; rfl
  | cons c X' ih =>
    intro t ht
    show (c :: (X' ++ t)).getLast? = t.getLast?
    rw [← ih t ht]
    cases hx : X' ++ t with
    | nil => exact absurd hx (by simp [ht])
    | cons d r => exact List.getLast?_cons_cons

theorem getLast_mem_of_ne : ∀ (t : Str), t ≠ [] → ∃ x ∈ t, t.getLast? = some x := by
  intro t
  induction t with
  | nil => intro h; exact absurd rfl h
  | cons c r ih =>
    intro _
    cases hr : r with
    | nil => exact ⟨c, by simp, rfl⟩
    | cons d r' =>
      obtain ⟨x, hx, hgl⟩ := ih (by simp [hr])
      rw [hr] at hx hgl
      exact ⟨x, by simp [hx], by rw [List.getLast?_cons_cons]; exact hgl⟩

theorem getLastD_irrel {α : Type} (a : α) (t : List α) (d1 d2 : α) :
    (a :: t).getLastD d1 = (a :: t).getLastD d2 := by
  rw [List.getLastD_cons, List.getLastD_cons]

theorem getLastD_cons_ne (s : Str) (rest : List Str) (h : rest ≠ []) :
    (s :: rest).getLastD [] = rest.getLastD [] := by
  obtain ⟨a, b, rfl⟩ := List.exists_cons_of_ne_nil h
  rw [List.getLastD_cons]
  exact getLastD_irrel a b s []

theorem absOf_decomp : ∀ (segs : List Str), segs ≠ [] →
    ∃ X, absOf segs = X ++ '/' :: segs.getLastD [] := by
  intro segs
  induction segs with
  | nil => intro h; exact absurd rfl h
  | cons s rest ih =>
    intro _
    by_cases hr : rest = []
    · subst hr
      exact ⟨[], rfl⟩
    · obtain ⟨X, hX⟩ := ih hr
      rw [absOf_cons s rest hr, hX, getLastD_cons_ne s rest hr]
      exact ⟨('/' :: s) ++ X, by simp⟩

theorem absOf_last_ne_slash (segs : List Str) (hne : segs ≠ [])
    (hwf : ∀ g ∈ segs, WfSeg g) :
    ∃ x, (absOf segs).getLast? = some x ∧ ¬ x = '/' := by
  obtain ⟨X, hX⟩ := absOf_decomp segs hne
  have hlmem : segs.getLastD [] ∈ segs := by
    cases segs with
    | nil => exact absurd rfl hne
    | cons s rest =>
      rw [List.getLastD_cons]
      exact List.getLastD_mem_cons rest s
  obtain ⟨h1, h2, _, _⟩ := hwf _ hlmem
  obtain ⟨x, hx, hgl⟩ := getLast_mem_of_ne _ h1
  refine ⟨x, ?_, ?_⟩
  · rw [hX, getLast_app X ('/' :: segs.getLastD []) (by simp)]
    obtain ⟨c, r, hl⟩ := List.exists_cons_of_ne_nil h1
    rw [hl, List.getLast?_cons_cons, ← hl]
    exact hgl
  · have := List.all_eq_true.mp h2 x hx
    simpa using this

theorem joinWith_append_one : ∀ (segs : List Str) (d : Str), segs ≠ [] →
    joinWith "/".data (segs ++ [d]) = joinWith "/".data segs ++ '/' :: d := by
  intro segs
  induction segs with
  | nil => intro d h; exact absurd rfl h
  | cons s rest ih =>
    intro d _
    by_cases hr : rest = []
    · subst hr
      simp [joinWith]
    · have happ : rest ++ [d] ≠ [] := by simp
      show joinWith "/".data (s :: (rest ++ [d])) = _
      rw [joinWith_cons_ne _ _ _ happ, joinWith_cons_ne _ _ _ hr, ih d hr]
      simp

theorem absOf_append_one (segs : List Str) (d : Str) (hne : segs ≠ []) :
    absOf (segs ++ [d]) = absOf segs ++ '/' :: d := by
  unfold absOf
  rw [show (segs ++ [d]) = segs ++ [d] from rfl, joinWith_append_one segs d hne]
  simp

theorem osJoin_abs (segs : List Str) (d : Str) (hne : segs ≠ [])
    (hwf : ∀ g ∈ segs, WfSeg g) (hd : WfSeg d) :
    osJoin (absOf segs) d = absOf segs ++ '/' :: d := by
  obtain ⟨c0, d', rfl⟩ := List.exists_cons_of_ne_nil hd.1
  have hc0 : ¬ c0 = '/' := by
    have := List.all_eq_true.mp hd.2.1 c0 (by simp)
    simpa using this
  obtain ⟨x, hgl, hx⟩ := absOf_last_ne_slash segs hne hwf
  have hne2 : absOf segs ≠ [] := by simp [absOf]
  unfold osJoin
  rw [if_neg (by simp [hc0])]
  have hcnd : ¬ ((absOf segs = [] : Bool) || ((absOf segs).getLast? = some '/' : Bool)) = true := by
    simp only [Bool.or_eq_true, decide_eq_true_eq]
    rintro (h1 | h2)
    · exact hne2 h1
    · rw [hgl] at h2
      exact hx (by simpa using h2)
  rw [if_neg hcnd]

theorem takeWhile_all_stop (p : Char → Bool) :
    ∀ (u : Str) (v : Char) (w : Str), (∀ x ∈ u, p x = true) → p v = false →
      (u ++ v :: w).takeWhile p = u := by
  intro u
  induction u with
  | nil =>
    intro v w _ hv
    simp [List.takeWhile_cons, hv]
  | cons c u' ih =>
    intro v w hall hv
    have hc : p c = true := hall c (by simp)
    show ((c :: (u' ++ v :: w)).takeWhile p) = c :: u'
    rw [List.takeWhile_cons, if_pos hc, ih v w (fun x hx => hall x (by simp [hx])) hv]

theorem basename_app (X t : Str) (hne : t ≠ []) (hall : t.all (· ≠ '/') = true) :
    basename (X ++ '/' :: t) = t := by
  unfold basename osSplit osSplitTail
  show (((X ++ '/' :: t).reverse.takeWhile (· ≠ '/')).reverse) = t
  have hrev : (X ++ '/' :: t).reverse = t.reverse ++ '/' :: X.reverse := by
    simp
  rw [hrev]
  rw [takeWhile_all_stop _ t.reverse '/' X.reverse ?_ (by simp)]
  · simp
  · intro x hx
    have := List.all_eq_true.mp hall x (by simpa using hx)
    simpa using this

/-- Claim C9, amended.  For a file in an album directory given as a single
well-formed relative segment `d`, resolved against an absolute normalized
working directory `absOf segs` whose path does not contain `d` as a
substring: when the directory patterns capture no artist, the fallback
artist is the base name of the working directory (the file's grandparent
directory in this invocation style), with the discography marker
stripped.  For multi-segment or absolute directory paths the fallback is
not the file's grandparent — see the counterexample. -/
theorem C9_thm : ∀ (segs : List Str) (d : Str),
    segs ≠ [] →
    (∀ g ∈ segs, WfSeg g) →
    WfSeg d →
    containsSub d (absOf segs) = false →
    ((parse DIR_PATTERNS d).bind (capLookup "artist")).getD [] = [] →
    inferArtist (absOf segs) d =
      pyReplace (segs.getLastD []) " - Discography".data [] := by
  intro segs d hne hwf hd hnocc hnoart
  simp only [inferArtist]
  rw [hnoart, if_pos rfl]
  unfold fallbackArtist uplevelDir
  have hwf2 : ∀ g ∈ segs ++ [d], WfSeg g := by
    intro g hg
    rcases List.mem_append.mp hg with h | h
    · exact hwf g h
    · rw [show g = d from by simpa using h]
      exact hd
  have habs : abspath (absOf segs) d = absOf (segs ++ [d]) := by
    unfold abspath
    obtain ⟨c0, d0, hdc⟩ := List.exists_cons_of_ne_nil hd.1
    have hc0 : ¬ c0 = '/' := by
      have := List.all_eq_true.mp hd.2.1 c0 (by rw [hdc]; simp)
      simpa using this
    rw [if_neg (by rw [hdc]; simp [hc0])]
    rw [osJoin_abs segs d hne hwf hd]
    rw [← absOf_append_one segs d hne]
    exact normpath_absOf (segs ++ [d]) (by simp) hwf2
  rw [habs]
  have hrepl : pyReplace (absOf (segs ++ [d])) d [] = absOf segs ++ ['/'] := by
    rw [absOf_append_one segs d hne]
    rw [show absOf segs ++ '/' :: d = (absOf segs ++ ['/']) ++ d from by simp]
    exact pyReplace_single (absOf segs ++ ['/']) d hd.1
      (no_occ_window (absOf segs) d hd.1 hd.2.1 hnocc)
  rw [hrepl]
  rw [normpath_absOf_slash segs hne hwf]
  have hlmem : segs.getLastD [] ∈ segs := by
    cases segs with
    | nil => exact absurd rfl hne
    | cons s rest =>
      rw [List.getLastD_cons]
      exact List.getLastD_mem_cons rest s
  obtain ⟨hl1, hl2, _, _⟩ := hwf _ hlmem
  obtain ⟨X, hX⟩ := absOf_decomp segs hne
  rw [hX, basename_app X (segs.getLastD []) hl1 hl2]

/-- Witness for C9 at working directory "/music/Artist" and album
directory "Album": the fallback artist is "Artist". -/
theorem C9_wit :
    inferArtist (absOf ["music".data, "Artist".data]) "Album".data =
      pyReplace (["music".data, "Artist".data].getLastD [])
        " - Discography".data [] :=
  C9_thm ["music".data, "Artist".data] "Album".data (by decide)
    (by
      intro g hg
      rcases List.mem_cons.mp hg with h | h
      · rw [h]
        exact ⟨by decide, by decide, by decide, by decide⟩
      · rcases List.mem_cons.mp h with h2 | h2
        · rw [h2]
          exact ⟨by decide, by decide, by decide, by decide⟩
        · simp at h2)
    ⟨by decide, by decide, by decide, by decide⟩
    (by decide) (by decide)

/-- Counterexample to claim C9 as stated: for the absolute album
directory "/music/Artist/Album" (which yields no artist capture — it
contains no dash, bracket or leading digits), the inferred artist is "."
(the whole path is deleted from its own absolute form and `normpath('')`
is "."), not "Artist", the base name of the file's grandparent
directory. -/
theorem C9_cex :
    inferArtist "/music".data "/music/Artist/Album".data = ".".data ∧
    ".".data ≠ "Artist".data := by
  exact ⟨by decide, by decide⟩

end Mediasort
